import Mathlib

/-!
# Verification of the VRPTW MTZ solver core

A shallow embedding of the core of the Multi-Agent Operation-Research chat tool:
the MTZ model builder and route/schedule extractor (`src/Agents/vrptw_solver.py`,
`src/Agents/AG_vrptw_solver.py`) and the admission-control guardrails
(`src/Agents/guardrails.py`).  Numbers are embedded as `ℚ` (Python floats are
treated as exact numerics), Python `int` arithmetic as `ℤ`/`ℕ`, Python lists as
`List`, and the `visited` set as a `Finset ℕ`.  The unbounded `while` loop of
the route extractor is embedded with explicit fuel counting loop iterations;
`none` models non-termination within the given fuel.
-/

namespace VRPTW

/-- A VRP instance as loaded from JSON: fields exactly as produced by the
instance generator and consumed by `solve_vrptw_mtz` / the guardrails. -/
structure Instance where
  n_vertices : ℕ
  n_customers : ℕ
  n_vehicles : ℕ
  vehicle_capacity : ℚ
  coordinates : List (List ℚ)
  cost_matrix : List (List ℚ)
  time_windows : List (List ℚ)
  service_times : List ℚ
  demands : List ℚ

/-- `instance['cost_matrix'][i][j]` (Python list indexing; in range for valid
instances, out-of-range reads default to 0 in the embedding). -/
def Instance.cAt (inst : Instance) (i j : ℕ) : ℚ :=
  (inst.cost_matrix.getD i []).getD j 0

/-- `instance['time_windows'][i][1]`, the upper time-window bound. -/
def Instance.twLate (inst : Instance) (i : ℕ) : ℚ :=
  (inst.time_windows.getD i []).getD 1 0

/-- `instance['service_times'][i]`. -/
def Instance.sAt (inst : Instance) (i : ℕ) : ℚ :=
  inst.service_times.getD i 0

/-- Python's built-in `max` over a list: fold of `max` over the elements
(the value for `[]` is irrelevant, Python raises there). -/
def listMax : List ℚ → ℚ
  | [] => 0
  | a :: rest => rest.foldl max a

/-- `M = max(tw[i][1] for i in range(n)) + max(c[i][j] for i in range(n) for j
in range(n)) + max(s)` — src/Agents/vrptw_solver.py, line 36. -/
def bigM (inst : Instance) : ℚ :=
  let n := inst.n_vertices
  listMax ((List.range n).map inst.twLate)
    + listMax ((List.range n).flatMap (fun i => (List.range n).map (inst.cAt i)))
    + listMax inst.service_times

/-- The ordered pairs (i, j) for which `solve_vrptw_mtz` adds a time-propagation
constraint: `for i in range(n): for j in range(1, n): if i != j` (lines 77–79). -/
def timeConstrPairs (n : ℕ) : List (ℕ × ℕ) :=
  (List.range n).flatMap
    (fun i => ((List.range' 1 (n - 1)).filter (fun j => i ≠ j)).map (fun j => (i, j)))

/-- The time-propagation constraint added for the pair (i, j):
`t[j] >= t[i] + s[i] + c[i][j] - M * (1 - x[i, j])` (line 80), evaluated at an
assignment of the `t` and `x` decision variables. -/
def timeIneq (inst : Instance) (i j : ℕ) (t : ℕ → ℚ) (x : ℕ → ℕ → ℚ) : Prop :=
  t j ≥ t i + inst.sAt i + inst.cAt i j - bigM inst * (1 - x i j)

/-- `m` is the maximum of the list `l` (spec-side comparator for the big-M
refinement statement). -/
def isMaxOf (m : ℚ) (l : List ℚ) : Prop := m ∈ l ∧ ∀ y ∈ l, y ≤ m

/-- An arc assignment taking only the values 0 and 1 on the model's arc
variables (`x[i][j]` is `LpBinary`, declared for `i ≠ j` within range). -/
def binaryAssign (n : ℕ) (x : ℕ → ℕ → ℚ) : Prop :=
  ∀ i j, i < n → j < n → i ≠ j → x i j = 0 ∨ x i j = 1

/-- The index list of the generator `for i in range(n) if i != j`. -/
def others (n j : ℕ) : List ℕ := (List.range n).filter (fun i => i ≠ j)

/-- Python `range(1, n)`: the customer indices. -/
def custRange (n : ℕ) : List ℕ := List.range' 1 (n - 1)

/-- Constraint families 1–2 of `solve_vrptw_mtz` (lines 64–69): each customer
has exactly one incoming and one outgoing selected arc. -/
def visitOnce (n : ℕ) (x : ℕ → ℕ → ℚ) : Prop :=
  (∀ j, 1 ≤ j → j < n → ((others n j).map (fun i => x i j)).sum = 1) ∧
  (∀ i, 1 ≤ i → i < n → ((others n i).map (fun j => x i j)).sum = 1)

/-- Constraint family 3 of `solve_vrptw_mtz` (lines 72–74): depot flow. -/
def depotFlow (n K : ℕ) (x : ℕ → ℕ → ℚ) : Prop :=
  ((custRange n).map (fun j => x 0 j)).sum ≤ (K : ℚ) ∧
  ((custRange n).map (fun i => x i 0)).sum ≤ (K : ℚ) ∧
  ((custRange n).map (fun j => x 0 j)).sum = ((custRange n).map (fun i => x i 0)).sum

/-- Constraint family 5 of `solve_vrptw_mtz` (lines 83–86) together with the
bounds `0 ≤ u[i] ≤ n` from the variable declaration (line 51): the MTZ subtour
elimination constraints, evaluated at an assignment `u` of the position
variables. -/
def mtzHolds (n : ℕ) (x : ℕ → ℕ → ℚ) (u : ℕ → ℚ) : Prop :=
  (∀ i, i < n → 0 ≤ u i ∧ u i ≤ (n : ℚ)) ∧
  (∀ i j, 1 ≤ i → i < n → 1 ≤ j → j < n → i ≠ j →
    u i - u j + (n : ℚ) * x i j ≤ (n : ℚ) - 1)

/-- The inner scan of the route extractor:
`for next_v in range(n): if current != next_v and value(x[current, next_v]) > 0.5`
— returns the first such `next_v`, if any (lines 133–134); the threshold 0.5 is
embedded as `mkRat 1 2`. -/
def findNext (n : ℕ) (x : ℕ → ℕ → ℚ) (current : ℕ) : Option ℕ :=
  (List.range n).find? (fun v => decide (current ≠ v ∧ mkRat 1 2 < x current v))

/-- The inner `while current != 0` loop of `extract_solution`
(src/Agents/vrptw_solver.py, lines 132–142).  One unit of fuel is one loop
iteration; `none` models running out of fuel, i.e. non-termination within the
budget.  The three recursive branches are: selected arc to the depot (close the
route), selected arc to an unvisited customer (append and advance), and the
stuck cases (first selected arc goes to an already visited customer, or no
selected arc at all), in which the Python loop repeats with unchanged state. -/
def innerLoop (n : ℕ) (x : ℕ → ℕ → ℚ) :
    ℕ → List ℕ → Finset ℕ → ℕ → Option (List ℕ × Finset ℕ)
  | 0, _, _, _ => none
  | fuel + 1, route, visited, current =>
    if current = 0 then some (route, visited)
    else
      match findNext n x current with
      | none => innerLoop n x fuel route visited current
      | some v =>
        if v = 0 then innerLoop n x fuel (route ++ [0]) visited 0
        else if v ∉ visited then
          innerLoop n x fuel (route ++ [v]) (insert v visited) v
        else innerLoop n x fuel route visited current

/-- The outer `for j in range(1, n)` loop of `extract_solution` (lines
126–144): start a new route `[0, j]` at each unvisited customer `j` whose
depot arc is selected. -/
def outerLoop (n : ℕ) (x : ℕ → ℕ → ℚ) (fuel : ℕ) :
    List ℕ → List (List ℕ) → Finset ℕ → Option (List (List ℕ) × Finset ℕ)
  | [], routes, visited => some (routes, visited)
  | j :: js, routes, visited =>
    if mkRat 1 2 < x 0 j ∧ j ∉ visited then
      match innerLoop n x fuel [0, j] (insert j visited) j with
      | none => none
      | some (route, visited') => outerLoop n x fuel js (routes ++ [route]) visited'
    else outerLoop n x fuel js routes visited

/-- The route-extraction part of `extract_solution`: the list of reconstructed
routes, or `none` if the reconstruction loop exceeds the fuel budget. -/
def extractRoutes (n : ℕ) (x : ℕ → ℕ → ℚ) (fuel : ℕ) : Option (List (List ℕ)) :=
  (outerLoop n x fuel (List.range' 1 (n - 1)) [] ∅).map (fun r => r.1)

/-- Modelled from PuLP (the external solver library): the `LpStatus` code
table used by `extract_solution` and `solve_vrptw`. -/
inductive SolverStatus | notSolved | optimal | infeasible | unbounded | undefined
deriving DecidableEq

/-- Modelled from PuLP: `LpStatus[status]`. -/
def LpStatusStr : SolverStatus → String
  | .notSolved => "Not Solved"
  | .optimal => "Optimal"
  | .infeasible => "Infeasible"
  | .unbounded => "Unbounded"
  | .undefined => "Undefined"

/-- `extract_solution` (src/Agents/vrptw_solver.py, lines 105–144): `None`
unless the status string is `Optimal` or `Feasible`; otherwise the routes. -/
def extract_solution (n : ℕ) (x : ℕ → ℕ → ℚ) (status : SolverStatus) (fuel : ℕ) :
    Option (List (List ℕ)) :=
  if ["Optimal", "Feasible"].contains (LpStatusStr status) then extractRoutes n x fuel
  else none

/-- `value(t[next_v]) if value(t[next_v]) else 0` (AG_vrptw_solver.py, lines
132 and 145): `value` may return `None`, and Python truthiness sends both
`None` and `0.0` to the literal `0`. -/
def recordArrival (t : ℕ → Option ℚ) (v : ℕ) : ℚ :=
  match t v with
  | none => 0
  | some q => if q = 0 then 0 else q

/-- The inner `while` loop of the agent-level extractor (AG_vrptw_solver.py,
lines 136–148), which also accumulates the arrival-time schedule. -/
def innerLoopAG (n : ℕ) (x : ℕ → ℕ → ℚ) (t : ℕ → Option ℚ) :
    ℕ → List ℕ → List ℚ → Finset ℕ → ℕ → Option (List ℕ × List ℚ × Finset ℕ)
  | 0, _, _, _, _ => none
  | fuel + 1, route, sched, visited, current =>
    if current = 0 then some (route, sched, visited)
    else
      match findNext n x current with
      | none => innerLoopAG n x t fuel route sched visited current
      | some v =>
        if v = 0 then innerLoopAG n x t fuel (route ++ [0]) (sched ++ [0]) visited 0
        else if v ∉ visited then
          innerLoopAG n x t fuel (route ++ [v]) (sched ++ [recordArrival t v])
            (insert v visited) v
        else innerLoopAG n x t fuel route sched visited current

/-- The outer loop of the agent-level extractor (AG_vrptw_solver.py, lines
129–151): each new route starts as `[0, j]` with schedule `[0, record(j)]`. -/
def outerLoopAG (n : ℕ) (x : ℕ → ℕ → ℚ) (t : ℕ → Option ℚ) (fuel : ℕ) :
    List ℕ → List (List ℕ) → List (List ℚ) → Finset ℕ →
    Option (List (List ℕ) × List (List ℚ) × Finset ℕ)
  | [], routes, scheds, visited => some (routes, scheds, visited)
  | j :: js, routes, scheds, visited =>
    if mkRat 1 2 < x 0 j ∧ j ∉ visited then
      match innerLoopAG n x t fuel [0, j] [0, recordArrival t j] (insert j visited) j with
      | none => none
      | some (route, sched, visited') =>
        outerLoopAG n x t fuel js (routes ++ [route]) (scheds ++ [sched]) visited'
    else outerLoopAG n x t fuel js routes scheds visited

/-- Routes and schedules extracted by the agent-level `solve_vrptw`. -/
def extractAG (n : ℕ) (x : ℕ → ℕ → ℚ) (t : ℕ → Option ℚ) (fuel : ℕ) :
    Option (List (List ℕ) × List (List ℚ)) :=
  (outerLoopAG n x t fuel (List.range' 1 (n - 1)) [] [] ∅).map (fun r => (r.1, r.2.1))

/-- Outcome of the agent-level `solve_vrptw` after the solver returns. -/
inductive AGSolveResult
  | noSolution (statusLine : String)
  | solution (statusLine : String) (routes : List (List ℕ)) (schedules : List (List ℚ))
deriving DecidableEq

/-- The post-solve flow of `solve_vrptw` (AG_vrptw_solver.py, lines 114–160):
on a status other than Optimal/Feasible, report the status and stop; otherwise
run the extractor.  `none` models extractor non-termination. -/
def ag_solve_vrptw (n : ℕ) (x : ℕ → ℕ → ℚ) (t : ℕ → Option ℚ)
    (status : SolverStatus) (fuel : ℕ) : Option AGSolveResult :=
  let st := LpStatusStr status
  if ["Optimal", "Feasible"].contains st then
    (extractAG n x t fuel).map (fun rs => AGSolveResult.solution st rs.1 rs.2)
  else some (AGSolveResult.noSolution st)

/-- Validation outcome mirroring `ParameterValidationResult`: `is_valid` is
defined as "no errors"; `corrected_time_limit` embeds the only key the solver
guardrail ever puts into `corrected_values`. -/
structure ValidationResult where
  errors : List String
  warnings : List String
  corrected_time_limit : Option ℤ

/-- `is_valid=len(errors)==0`. -/
def ValidationResult.is_valid (r : ValidationResult) : Bool := r.errors.isEmpty

/-- The `for i, tw in enumerate(instance['time_windows'])` error scan of
`validate_instance_data` (guardrails.py, lines 372–376). -/
def twErrors : ℕ → List (List ℚ) → List String
  | _, [] => []
  | i, tw :: rest =>
    (if tw.length ≠ 2 then
      ["time_window[" ++ toString i ++ "] must have 2 elements"]
     else if tw.getD 0 0 > tw.getD 1 0 then
      ["time_window[" ++ toString i ++ "]: early (" ++ toString (tw.getD 0 0)
        ++ ") > late (" ++ toString (tw.getD 1 0) ++ ")"]
     else []) ++ twErrors (i + 1) rest

/-- `InstanceParameterGuardrail.validate_instance_data` (guardrails.py, lines
335–395), for an instance value that has all required fields (the structure
makes the missing-field branch unrepresentable). -/
def validate_instance_data (inst : Instance) : ValidationResult :=
  let n := inst.n_vertices
  let cl := inst.coordinates.length
  let ml := inst.cost_matrix.length
  let twl := inst.time_windows.length
  let dl := inst.demands.length
  let errors :=
    (if cl ≠ n then
      ["coordinates length (" ++ toString cl ++ ") != n_vertices (" ++ toString n ++ ")"]
     else [])
    ++ (if ml ≠ n then
      ["cost_matrix rows (" ++ toString ml ++ ") != n_vertices (" ++ toString n ++ ")"]
       else [])
    ++ (if twl ≠ n then
      ["time_windows length (" ++ toString twl ++ ") != n_vertices (" ++ toString n ++ ")"]
       else [])
    ++ (if dl ≠ n then
      ["demands length (" ++ toString dl ++ ") != n_vertices (" ++ toString n ++ ")"]
       else [])
    ++ twErrors 0 inst.time_windows
  let warnings :=
    (if inst.demands.getD 0 0 ≠ 0 then ["Depot (index 0) should have demand=0"] else [])
    ++ (if (inst.demands.drop 1).sum > (inst.n_vehicles : ℚ) * inst.vehicle_capacity then
        ["Total demand > total capacity - problem may be infeasible"]
       else [])
  { errors := errors, warnings := warnings, corrected_time_limit := none }

/-- Per-field report of `SolverGuardrail.estimate_complexity` (Python `int`
arithmetic, hence over `ℤ`). -/
structure ComplexityEstimate where
  n_binary_vars : ℤ
  n_continuous_vars : ℤ
  n_total_vars : ℤ
  n_constraints : ℤ
  estimated_difficulty : String

/-- `SolverGuardrail.estimate_complexity` (guardrails.py, lines 462–488):
depends only on `n_vertices`; no model is built. -/
def estimate_complexity (n : ℕ) : ComplexityEstimate :=
  let nz : ℤ := n
  let nBin := nz * (nz - 1)
  let nCont := 3 * nz
  { n_binary_vars := nBin
    n_continuous_vars := nCont
    n_total_vars := nBin + nCont
    n_constraints :=
      2 * (nz - 1) + 3 + nz * (nz - 1) + (nz - 1) * (nz - 2) + nz * (nz - 1) + 1
    estimated_difficulty := if n ≤ 15 then "easy" else if n ≤ 30 then "medium" else "hard" }

/-- `SolverGuardrail.MAX_SOLVE_TIME`. -/
def MAX_SOLVE_TIME : ℤ := 600

/-- `SolverGuardrail.MAX_VARIABLES`. -/
def MAX_VARIABLES : ℤ := 50000

/-- `SolverGuardrail.MAX_CONSTRAINTS`. -/
def MAX_CONSTRAINTS : ℤ := 100000

/-- `SolverGuardrail.validate_solve_request` (guardrails.py, lines 491–538):
an out-of-range time limit is an *error* (with a suggested corrected value),
not a silent clamp. -/
def validate_solve_request (n : ℕ) (time_limit : ℤ) : ValidationResult :=
  let tlErrors :=
    if time_limit > MAX_SOLVE_TIME then
      ["time_limit (" ++ toString time_limit ++ "s) exceeds maximum ("
        ++ toString MAX_SOLVE_TIME ++ "s)"]
    else if time_limit < 1 then ["time_limit must be at least 1 second"]
    else []
  let corrected :=
    if time_limit > MAX_SOLVE_TIME then some MAX_SOLVE_TIME
    else if time_limit < 1 then some (1 : ℤ)
    else none
  let comp := estimate_complexity n
  let sizeErrors :=
    (if comp.n_total_vars > MAX_VARIABLES then
      ["Instance too large: " ++ toString comp.n_total_vars ++ " variables (max: "
        ++ toString MAX_VARIABLES ++ ")"]
     else [])
    ++ (if comp.n_constraints > MAX_CONSTRAINTS then
      ["Instance too large: " ++ toString comp.n_constraints ++ " constraints (max: "
        ++ toString MAX_CONSTRAINTS ++ ")"]
       else [])
  let warnings :=
    if comp.estimated_difficulty = "hard" then
      ["Large instance - solving may take a while or not reach optimality"]
    else []
  { errors := tlErrors ++ sizeErrors, warnings := warnings,
    corrected_time_limit := corrected }

/-- The hard-coded CBC invocation of `solve_vrptw_mtz` (vrptw_solver.py, line
100): `PULP_CBC_CMD(msg=1, timeLimit=300)`. -/
def solve_vrptw_mtz_timeLimit : ℤ := 300

/-- The time-limit flow of the agent-level `solve_vrptw` (AG_vrptw_solver.py,
lines 93–108): validate the request; if invalid, return without solving
(`none`); otherwise read back any corrected time limit (none exists when the
request is valid) and call `solve_vrptw_mtz`, whose solver invocation uses the
hard-coded 300-second limit.  The result is the time limit the external solver
is invoked with. -/
def invokedTimeLimit (n : ℕ) (time_limit : ℤ) : Option ℤ :=
  let v := validate_solve_request n time_limit
  if v.is_valid then
    let _corrected := v.corrected_time_limit.getD time_limit
    some solve_vrptw_mtz_timeLimit
  else none

/-- Modelled from the spec: "time_limit is clamped to [1, 600] seconds"
(spec §6) — the comparator the code is checked against for claim C3. -/
def specClamp (tl : ℤ) : ℤ := max 1 (min 600 tl)

/-- The admission flow of the agent-level `solve_vrptw` (AG_vrptw_solver.py,
lines 87–108): the Model Builder (`solve_vrptw_mtz`) runs iff the instance
validation and the solve-request validation both pass. -/
def reachesModelBuilder (inst : Instance) (time_limit : ℤ) : Bool :=
  (validate_instance_data inst).is_valid
    && (validate_solve_request inst.n_vertices time_limit).is_valid

/-- Concrete 3-vertex assignment: the single tour 0 → 1 → 2 → 0. -/
def xTour (i j : ℕ) : ℚ :=
  if (i, j) = (0, 1) ∨ (i, j) = (1, 2) ∨ (i, j) = (2, 0) then 1 else 0

/-- Position values witnessing the MTZ constraints for `xTour`. -/
def uTour (i : ℕ) : ℚ := i

/-- Concrete 3-vertex assignment whose selected arcs contain the depot-less
cycle 1 → 2 → 1. -/
def xCycle (i j : ℕ) : ℚ :=
  if (i, j) = (0, 1) ∨ (i, j) = (1, 2) ∨ (i, j) = (2, 1) then 1 else 0

/-- Concrete solver arrival times used in witnesses. -/
def tSample (v : ℕ) : Option ℚ := if v = 0 then none else some (v : ℚ)

/-- A malformed instance: the cost matrix has the right number of rows but is
not square (2 rows of length 1). -/
def instNonSquare : Instance :=
  { n_vertices := 2
    n_customers := 1
    n_vehicles := 1
    vehicle_capacity := 10
    coordinates := [[0, 0], [1, 0]]
    cost_matrix := [[0], [0]]
    time_windows := [[0, 10], [0, 10]]
    service_times := [0, 0]
    demands := [0, 1] }

/-- A malformed instance: the second time window has earliest 5 > latest 2. -/
def instBadTW : Instance :=
  { n_vertices := 2
    n_customers := 1
    n_vehicles := 1
    vehicle_capacity := 10
    coordinates := [[0, 0], [1, 0]]
    cost_matrix := [[0, 1], [1, 0]]
    time_windows := [[0, 10], [5, 2]]
    service_times := [0, 0]
    demands := [0, 1] }

/-- Invariant of the visited set during extraction: every visited customer was
discovered either through its selected depot arc or through a selected arc
from another (distinct) visited customer. -/
def closedIn (x : ℕ → ℕ → ℚ) (V : Finset ℕ) : Prop :=
  ∀ s ∈ V, x 0 s = 1 ∨ ∃ c ∈ V, c ≠ s ∧ x c s = 1

/-- Invariant of the visited set after complete routes: every visited customer
has a selected arc to the depot or to another (distinct) visited customer. -/
def closedOut (x : ℕ → ℕ → ℚ) (V : Finset ℕ) : Prop :=
  ∀ s ∈ V, x s 0 = 1 ∨ ∃ c ∈ V, c ≠ s ∧ x s c = 1

/-- The visited set contains only customers and is closed for discovery and
continuation. -/
def goodVisited (n : ℕ) (x : ℕ → ℕ → ℚ) (V : Finset ℕ) : Prop :=
  (∀ v ∈ V, 1 ≤ v ∧ v < n) ∧ closedIn x V ∧ closedOut x V


/-- C4: for an instance with n vertices the complexity estimator reports
n(n−1) binary variables, 3n continuous variables, and
2(n−1) + 3 + n(n−1) + (n−1)(n−2) + n(n−1) + 1 total constraints, and
classifies the instance as easy (n ≤ 15), medium (15 < n ≤ 30) or hard
(n > 30), from `n_vertices` alone — no model is built. -/
theorem claimC4_complexity (n : ℕ) :
    (estimate_complexity n).n_binary_vars = (n : ℤ) * ((n : ℤ) - 1) ∧
    (estimate_complexity n).n_continuous_vars = 3 * (n : ℤ) ∧
    (estimate_complexity n).n_constraints =
      2 * ((n : ℤ) - 1) + 3 + (n : ℤ) * ((n : ℤ) - 1) + ((n : ℤ) - 1) * ((n : ℤ) - 2)
        + (n : ℤ) * ((n : ℤ) - 1) + 1 ∧
    (n ≤ 15 → (estimate_complexity n).estimated_difficulty = "easy") ∧
    (15 < n → n ≤ 30 → (estimate_complexity n).estimated_difficulty = "medium") ∧
    (30 < n → (estimate_complexity n).estimated_difficulty = "hard") := by
  refine ⟨rfl, rfl, rfl, ?_, ?_, ?_⟩
  · intro h; simp [estimate_complexity, h]
  · intro h1 h2
    have hn : ¬ n ≤ 15 := by omega
    simp [estimate_complexity, hn, h2]
  · intro h
    have hn : ¬ n ≤ 15 := by omega
    have hm : ¬ n ≤ 30 := by omega
    simp [estimate_complexity, hn, hm]

theorem claimC4_witness :
    (estimate_complexity 10).estimated_difficulty = "easy" ∧
    (estimate_complexity 20).estimated_difficulty = "medium" ∧
    (estimate_complexity 40).estimated_difficulty = "hard" :=
  ⟨(claimC4_complexity 10).2.2.2.1 (by norm_num),
   (claimC4_complexity 20).2.2.2.2.1 (by norm_num) (by norm_num),
   (claimC4_complexity 40).2.2.2.2.2 (by norm_num)⟩

/-- C6: on a solver status other than Optimal/Feasible (Infeasible, Unbounded
or NotSolved), `extract_solution` returns None (no routes) and the agent-level
`solve_vrptw` reports the status as-is with no routes and no retry. -/
theorem claimC6_nonSuccess (n : ℕ) (x : ℕ → ℕ → ℚ) (t : ℕ → Option ℚ)
    (fuel : ℕ) (status : SolverStatus)
    (h : status = .infeasible ∨ status = .unbounded ∨ status = .notSolved) :
    extract_solution n x status fuel = none ∧
    ag_solve_vrptw n x t status fuel = some (.noSolution (LpStatusStr status)) := by
  rcases h with h | h | h <;> subst h <;> exact ⟨rfl, rfl⟩

theorem claimC6_witness :
    extract_solution 3 xTour .infeasible 3 = none ∧
    ag_solve_vrptw 3 xTour tSample .infeasible 3 = some (.noSolution "Infeasible") :=
  claimC6_nonSuccess 3 xTour tSample 3 .infeasible (Or.inl rfl)

/-- C3 (counterexample): the claim "the caller's time limit is clamped to
[1, 600] and the solver is invoked with the clamped limit" fails: for the
in-range request time_limit = 500 the solver is invoked with the hard-coded
300-second limit, not 500; and the out-of-range request 700 is rejected
outright rather than clamped. -/
theorem claimC3_counterexample :
    specClamp 500 = 500 ∧
    invokedTimeLimit 5 500 = some 300 ∧
    invokedTimeLimit 5 500 ≠ some (specClamp 500) ∧
    invokedTimeLimit 5 700 = none := by
  refine ⟨rfl, by decide, by decide, by decide⟩

/-- C3 (amended): an out-of-range time limit (> 600 or < 1) makes the solve
request invalid — it is rejected with an error (recording a suggested
corrected value of 600 resp. 1) and the solver is never invoked; a valid
request invokes the external solver with the hard-coded 300-second limit of
`solve_vrptw_mtz`, ignoring the caller's time limit. -/
theorem claimC3_amended (n : ℕ) (tl : ℤ) :
    (600 < tl ∨ tl < 1 →
      (validate_solve_request n tl).is_valid = false ∧ invokedTimeLimit n tl = none) ∧
    ((validate_solve_request n tl).is_valid = true →
      invokedTimeLimit n tl = some solve_vrptw_mtz_timeLimit) ∧
    (600 < tl → (validate_solve_request n tl).corrected_time_limit = some 600) ∧
    (tl < 1 → (validate_solve_request n tl).corrected_time_limit = some 1) := by
  refine ⟨?_, ?_, ?_, ?_⟩
  · rintro (h | h)
    · have hval : (validate_solve_request n tl).is_valid = false := by
        simp [validate_solve_request, ValidationResult.is_valid, MAX_SOLVE_TIME, h]
      exact ⟨hval, by simp [invokedTimeLimit, hval]⟩
    · have h6 : ¬ (600 : ℤ) < tl := by omega
      have hval : (validate_solve_request n tl).is_valid = false := by
        simp [validate_solve_request, ValidationResult.is_valid, MAX_SOLVE_TIME, h, h6]
      exact ⟨hval, by simp [invokedTimeLimit, hval]⟩
  · intro h; simp [invokedTimeLimit, h]
  · intro h; simp [validate_solve_request, MAX_SOLVE_TIME, h]
  · intro h
    have h6 : ¬ (600 : ℤ) < tl := by omega
    simp [validate_solve_request, MAX_SOLVE_TIME, h, h6]

theorem claimC3_amended_witness :
    (validate_solve_request 5 700).is_valid = false ∧
    invokedTimeLimit 5 700 = none ∧
    invokedTimeLimit 5 300 = some 300 := by
  refine ⟨((claimC3_amended 5 700).1 (Or.inl (by norm_num))).1,
    ((claimC3_amended 5 700).1 (Or.inl (by norm_num))).2,
    (claimC3_amended 5 300).2.1 (by decide)⟩


lemma twErrors_ne_nil {l : List (List ℚ)} (i : ℕ)
    (h : ∃ tw ∈ l, tw.length ≠ 2 ∨ (tw.length = 2 ∧ tw.getD 1 0 < tw.getD 0 0)) :
    twErrors i l ≠ [] := by
  induction l generalizing i with
  | nil => rcases h with ⟨tw, htw, _⟩; cases htw
  | cons a rest ih =>
    rcases h with ⟨tw, htw, hbad⟩
    rcases List.mem_cons.mp htw with rfl | hmem
    · rcases hbad with hlen | ⟨hlen, hlt⟩
      · rw [twErrors, if_pos hlen]; simp
      · rw [twErrors, if_neg (by simp [hlen]), if_pos hlt]; simp
    · have hrec := ih (i + 1) ⟨tw, hmem, hbad⟩
      rw [twErrors]
      exact List.append_ne_nil_of_right_ne_nil _ hrec

/-- C9 (counterexample): a non-square cost matrix with the correct number of
rows is NOT rejected: `instNonSquare` has 2 rows of length 1, passes
`validate_instance_data`, and reaches the Model Builder. -/
theorem claimC9_counterexample :
    instNonSquare.cost_matrix.length = instNonSquare.n_vertices ∧
    (∃ row ∈ instNonSquare.cost_matrix, row.length ≠ instNonSquare.n_vertices) ∧
    (validate_instance_data instNonSquare).is_valid = true ∧
    reachesModelBuilder instNonSquare 300 = true := by
  refine ⟨rfl, ⟨[0], by norm_num [instNonSquare], by norm_num [instNonSquare]⟩,
    by decide, by decide⟩

/-- C9 (amended): validation rejects (before the Model Builder runs) an
instance whose coordinates, cost-matrix *row count*, time-windows or demands
length mismatches `n_vertices`, or that has a time window with fewer/more than
2 entries or with earliest > latest; a non-square cost matrix with the right
row count, or a wrong-length `service_times`, is not detected. -/
theorem claimC9_amended (inst : Instance) (tl : ℤ)
    (h : inst.coordinates.length ≠ inst.n_vertices ∨
         inst.cost_matrix.length ≠ inst.n_vertices ∨
         inst.time_windows.length ≠ inst.n_vertices ∨
         inst.demands.length ≠ inst.n_vertices ∨
         (∃ tw ∈ inst.time_windows,
           tw.length ≠ 2 ∨ (tw.length = 2 ∧ tw.getD 1 0 < tw.getD 0 0))) :
    (validate_instance_data inst).is_valid = false ∧
    reachesModelBuilder inst tl = false := by
  have hval : (validate_instance_data inst).is_valid = false := by
    rw [ValidationResult.is_valid, List.isEmpty_eq_false]
    simp only [validate_instance_data]
    rcases h with h | h | h | h | h
    · apply List.append_ne_nil_of_left_ne_nil
      apply List.append_ne_nil_of_left_ne_nil
      apply List.append_ne_nil_of_left_ne_nil
      apply List.append_ne_nil_of_left_ne_nil
      rw [if_pos h]; simp
    · apply List.append_ne_nil_of_left_ne_nil
      apply List.append_ne_nil_of_left_ne_nil
      apply List.append_ne_nil_of_left_ne_nil
      apply List.append_ne_nil_of_right_ne_nil
      rw [if_pos h]; simp
    · apply List.append_ne_nil_of_left_ne_nil
      apply List.append_ne_nil_of_left_ne_nil
      apply List.append_ne_nil_of_right_ne_nil
      rw [if_pos h]; simp
    · apply List.append_ne_nil_of_left_ne_nil
      apply List.append_ne_nil_of_right_ne_nil
      rw [if_pos h]; simp
    · apply List.append_ne_nil_of_right_ne_nil
      exact twErrors_ne_nil 0 h
  exact ⟨hval, by simp [reachesModelBuilder, hval]⟩

theorem claimC9_amended_witness :
    (validate_instance_data instBadTW).is_valid = false ∧
    reachesModelBuilder instBadTW 300 = false :=
  claimC9_amended instBadTW 300
    (Or.inr (Or.inr (Or.inr (Or.inr ⟨[5, 2], by norm_num [instBadTW],
      Or.inr ⟨rfl, by norm_num⟩⟩))))

lemma innerLoop_xCycle_stuck (f : ℕ) :
    innerLoop 3 xCycle f [0, 1, 2] (insert 2 (insert 1 (∅ : Finset ℕ))) 2 = none := by
  have hf : findNext 3 xCycle 2 = some 1 := by decide
  induction f with
  | zero => rfl
  | succ g ih =>
    rw [innerLoop, if_neg (by norm_num), hf]
    simpa [Finset.mem_insert] using ih

/-- C8: there is a solved arc assignment whose selected arcs form a cycle
(1 → 2 → 1) that never returns to the depot, on which the route-extraction
loop never terminates: for every iteration budget the extraction runs out
(no result and no reconstruction error — the code has no such error path). -/
theorem claimC8_nontermination :
    (xCycle 0 1 = 1 ∧ xCycle 1 2 = 1 ∧ xCycle 2 1 = 1 ∧
     xCycle 1 0 = 0 ∧ xCycle 2 0 = 0) ∧
    ∀ fuel, extractRoutes 3 xCycle fuel = none := by
  refine ⟨by norm_num [xCycle], ?_⟩
  intro fuel
  cases fuel with
  | zero => decide
  | succ f =>
    have hf : findNext 3 xCycle 1 = some 2 := by decide
    have hstep : innerLoop 3 xCycle (f + 1) [0, 1] (insert 1 (∅ : Finset ℕ)) 1
        = innerLoop 3 xCycle f [0, 1, 2] (insert 2 (insert 1 (∅ : Finset ℕ))) 2 := by
      rw [innerLoop, if_neg (by norm_num), hf]
      simp [Finset.mem_insert]
    have h1 : innerLoop 3 xCycle (f + 1) [0, 1] (insert 1 (∅ : Finset ℕ)) 1 = none :=
      hstep.trans (innerLoop_xCycle_stuck f)
    show (outerLoop 3 xCycle (f + 1) [1, 2] [] ∅).map (fun r => r.1) = none
    rw [outerLoop, if_pos (by decide : mkRat 1 2 < xCycle 0 1 ∧ 1 ∉ (∅ : Finset ℕ)), h1]
    rfl

lemma listMax_cons_cons (a b : ℚ) (t : List ℚ) :
    listMax (a :: b :: t) = listMax (max a b :: t) := rfl

lemma listMax_isMaxOf : ∀ (a : ℚ) (rest : List ℚ), isMaxOf (listMax (a :: rest)) (a :: rest)
  | a, [] => ⟨by simp [listMax], by intro y hy; simp at hy; simp [hy, listMax]⟩
  | a, b :: t => by
    have ih := listMax_isMaxOf (max a b) t
    rw [listMax_cons_cons]
    rcases ih with ⟨hmem, hle⟩
    constructor
    · rcases List.mem_cons.mp hmem with h | h
      · rcases max_choice a b with hc | hc
        · rw [h, hc]; exact List.mem_cons_self _ _
        · rw [h, hc]; exact List.mem_cons_of_mem _ (List.mem_cons_self _ _)
      · exact List.mem_cons_of_mem _ (List.mem_cons_of_mem _ h)
    · intro y hy
      rcases List.mem_cons.mp hy with rfl | hy2
      · exact le_trans (le_max_left y b) (hle _ (List.mem_cons_self _ _))
      · rcases List.mem_cons.mp hy2 with rfl | hy3
        · exact le_trans (le_max_right a y) (hle _ (List.mem_cons_self _ _))
        · exact hle _ (List.mem_cons_of_mem _ hy3)

lemma listMax_isMaxOf_of_ne_nil {l : List ℚ} (h : l ≠ []) : isMaxOf (listMax l) l := by
  obtain ⟨a, rest, rfl⟩ := List.exists_cons_of_ne_nil h
  exact listMax_isMaxOf a rest

/-- C2: the Model Builder adds a time-propagation constraint for exactly the
ordered pairs (i, j) with j a non-depot vertex and i ≠ j, each constraint being
`t[j] ≥ t[i] + service(i) + cost(i,j) − M·(1 − x[i,j])` where M is the sum of
the maximum time-window upper bound, the maximum travel cost and the maximum
service time, computed from the instance data. -/
theorem claimC2_timeConstraints (inst : Instance) (hn : 1 ≤ inst.n_vertices)
    (hs : inst.service_times ≠ []) :
    (∀ i j, (i, j) ∈ timeConstrPairs inst.n_vertices ↔
      (i < inst.n_vertices ∧ 1 ≤ j ∧ j < inst.n_vertices ∧ i ≠ j)) ∧
    (∃ a b m, isMaxOf a ((List.range inst.n_vertices).map inst.twLate) ∧
      isMaxOf b ((List.range inst.n_vertices).flatMap
        (fun i => (List.range inst.n_vertices).map (inst.cAt i))) ∧
      isMaxOf m inst.service_times ∧
      bigM inst = a + b + m ∧
      (∀ i j t x, timeIneq inst i j t x ↔
        t j ≥ t i + inst.sAt i + inst.cAt i j - (a + b + m) * (1 - x i j))) := by
  constructor
  · intro i j
    simp only [timeConstrPairs, List.mem_flatMap, List.mem_map, List.mem_filter,
      List.mem_range, List.mem_range'_1, decide_eq_true_eq, Prod.mk.injEq]
    constructor
    · rintro ⟨a, ha, jj, ⟨⟨hjj1, hjj2⟩, hne⟩, rfl, rfl⟩
      exact ⟨ha, hjj1, by omega, hne⟩
    · rintro ⟨hi, hj1, hj2, hne⟩
      exact ⟨i, hi, j, ⟨⟨hj1, by omega⟩, hne⟩, rfl, rfl⟩
  · have h1 : ((List.range inst.n_vertices).map inst.twLate) ≠ [] := by
      rw [Ne, List.map_eq_nil_iff, List.range_eq_nil]; omega
    have h2 : ((List.range inst.n_vertices).flatMap
        (fun i => (List.range inst.n_vertices).map (inst.cAt i))) ≠ [] := by
      rw [Ne, List.flatMap_eq_nil_iff]
      intro hc
      have h0 : (0 : ℕ) ∈ List.range inst.n_vertices := by
        rw [List.mem_range]; omega
      have := hc 0 h0
      rw [List.map_eq_nil_iff, List.range_eq_nil] at this
      omega
    refine ⟨_, _, _, listMax_isMaxOf_of_ne_nil h1, listMax_isMaxOf_of_ne_nil h2,
      listMax_isMaxOf_of_ne_nil hs, rfl, ?_⟩
    intro i j t x
    exact Iff.rfl

theorem claimC2_witness :
    (0, 1) ∈ timeConstrPairs 2 ∧ (1, 1) ∉ timeConstrPairs 2 ∧
    (∃ a b m, isMaxOf a ((List.range 2).map instBadTW.twLate) ∧
      isMaxOf b ((List.range 2).flatMap (fun i => (List.range 2).map (instBadTW.cAt i))) ∧
      isMaxOf m instBadTW.service_times ∧
      bigM instBadTW = a + b + m ∧
      (∀ i j t x, timeIneq instBadTW i j t x ↔
        t j ≥ t i + instBadTW.sAt i + instBadTW.cAt i j - (a + b + m) * (1 - x i j))) := by
  have h := claimC2_timeConstraints instBadTW (by norm_num [instBadTW]) (by simp [instBadTW])
  refine ⟨(h.1 0 1).mpr (by norm_num [instBadTW]), ?_, h.2⟩
  intro hc
  have := (h.1 1 1).mp hc
  omega

lemma innerLoop_zero (n : ℕ) (x : ℕ → ℕ → ℚ) (route : List ℕ) (V : Finset ℕ) (c : ℕ) :
    innerLoop n x 0 route V c = none := rfl

lemma innerLoop_succ_done (n : ℕ) (x : ℕ → ℕ → ℚ) (f : ℕ) (route : List ℕ) (V : Finset ℕ) :
    innerLoop n x (f + 1) route V 0 = some (route, V) := by
  rw [innerLoop, if_pos rfl]

lemma innerLoop_succ_none (n : ℕ) (x : ℕ → ℕ → ℚ) (f : ℕ) (route : List ℕ) (V : Finset ℕ)
    {c : ℕ} (hc : c ≠ 0) (hfn : findNext n x c = none) :
    innerLoop n x (f + 1) route V c = innerLoop n x f route V c := by
  rw [innerLoop, if_neg hc, hfn]

lemma innerLoop_succ_some (n : ℕ) (x : ℕ → ℕ → ℚ) (f : ℕ) (route : List ℕ) (V : Finset ℕ)
    {c v : ℕ} (hc : c ≠ 0) (hfn : findNext n x c = some v) :
    innerLoop n x (f + 1) route V c =
      if v = 0 then innerLoop n x f (route ++ [0]) V 0
      else if v ∉ V then innerLoop n x f (route ++ [v]) (insert v V) v
      else innerLoop n x f route V c := by
  rw [innerLoop, if_neg hc, hfn]

lemma outerLoop_nil (n : ℕ) (x : ℕ → ℕ → ℚ) (fuel : ℕ) (routes : List (List ℕ))
    (V : Finset ℕ) : outerLoop n x fuel [] routes V = some (routes, V) := rfl

lemma outerLoop_cons_skip (n : ℕ) (x : ℕ → ℕ → ℚ) (fuel : ℕ) {j : ℕ} (js : List ℕ)
    (routes : List (List ℕ)) {V : Finset ℕ} (hcond : ¬(mkRat 1 2 < x 0 j ∧ j ∉ V)) :
    outerLoop n x fuel (j :: js) routes V = outerLoop n x fuel js routes V := by
  rw [outerLoop, if_neg hcond]

lemma outerLoop_cons_none (n : ℕ) (x : ℕ → ℕ → ℚ) (fuel : ℕ) {j : ℕ} (js : List ℕ)
    (routes : List (List ℕ)) {V : Finset ℕ} (hcond : mkRat 1 2 < x 0 j ∧ j ∉ V)
    (hinner : innerLoop n x fuel [0, j] (insert j V) j = none) :
    outerLoop n x fuel (j :: js) routes V = none := by
  rw [outerLoop, if_pos hcond, hinner]

lemma outerLoop_cons_some (n : ℕ) (x : ℕ → ℕ → ℚ) (fuel : ℕ) {j : ℕ} (js : List ℕ)
    (routes : List (List ℕ)) {V V1 : Finset ℕ} {route : List ℕ}
    (hcond : mkRat 1 2 < x 0 j ∧ j ∉ V)
    (hinner : innerLoop n x fuel [0, j] (insert j V) j = some (route, V1)) :
    outerLoop n x fuel (j :: js) routes V = outerLoop n x fuel js (routes ++ [route]) V1 := by
  rw [outerLoop, if_pos hcond, hinner]

lemma innerLoopAG_zero (n : ℕ) (x : ℕ → ℕ → ℚ) (t : ℕ → Option ℚ) (route : List ℕ)
    (sched : List ℚ) (V : Finset ℕ) (c : ℕ) :
    innerLoopAG n x t 0 route sched V c = none := rfl

lemma innerLoopAG_succ_done (n : ℕ) (x : ℕ → ℕ → ℚ) (t : ℕ → Option ℚ) (f : ℕ)
    (route : List ℕ) (sched : List ℚ) (V : Finset ℕ) :
    innerLoopAG n x t (f + 1) route sched V 0 = some (route, sched, V) := by
  rw [innerLoopAG, if_pos rfl]

lemma innerLoopAG_succ_none (n : ℕ) (x : ℕ → ℕ → ℚ) (t : ℕ → Option ℚ) (f : ℕ)
    (route : List ℕ) (sched : List ℚ) (V : Finset ℕ) {c : ℕ} (hc : c ≠ 0)
    (hfn : findNext n x c = none) :
    innerLoopAG n x t (f + 1) route sched V c = innerLoopAG n x t f route sched V c := by
  rw [innerLoopAG, if_neg hc, hfn]

lemma innerLoopAG_succ_some (n : ℕ) (x : ℕ → ℕ → ℚ) (t : ℕ → Option ℚ) (f : ℕ)
    (route : List ℕ) (sched : List ℚ) (V : Finset ℕ) {c v : ℕ} (hc : c ≠ 0)
    (hfn : findNext n x c = some v) :
    innerLoopAG n x t (f + 1) route sched V c =
      if v = 0 then innerLoopAG n x t f (route ++ [0]) (sched ++ [0]) V 0
      else if v ∉ V then
        innerLoopAG n x t f (route ++ [v]) (sched ++ [recordArrival t v]) (insert v V) v
      else innerLoopAG n x t f route sched V c := by
  rw [innerLoopAG, if_neg hc, hfn]

lemma outerLoopAG_nil (n : ℕ) (x : ℕ → ℕ → ℚ) (t : ℕ → Option ℚ) (fuel : ℕ)
    (routes : List (List ℕ)) (scheds : List (List ℚ)) (V : Finset ℕ) :
    outerLoopAG n x t fuel [] routes scheds V = some (routes, scheds, V) := rfl

lemma outerLoopAG_cons_skip (n : ℕ) (x : ℕ → ℕ → ℚ) (t : ℕ → Option ℚ) (fuel : ℕ)
    {j : ℕ} (js : List ℕ) (routes : List (List ℕ)) (scheds : List (List ℚ))
    {V : Finset ℕ} (hcond : ¬(mkRat 1 2 < x 0 j ∧ j ∉ V)) :
    outerLoopAG n x t fuel (j :: js) routes scheds V
      = outerLoopAG n x t fuel js routes scheds V := by
  rw [outerLoopAG, if_neg hcond]

lemma outerLoopAG_cons_none (n : ℕ) (x : ℕ → ℕ → ℚ) (t : ℕ → Option ℚ) (fuel : ℕ)
    {j : ℕ} (js : List ℕ) (routes : List (List ℕ)) (scheds : List (List ℚ))
    {V : Finset ℕ} (hcond : mkRat 1 2 < x 0 j ∧ j ∉ V)
    (hinner : innerLoopAG n x t fuel [0, j] [0, recordArrival t j] (insert j V) j = none) :
    outerLoopAG n x t fuel (j :: js) routes scheds V = none := by
  rw [outerLoopAG, if_pos hcond, hinner]

lemma outerLoopAG_cons_some (n : ℕ) (x : ℕ → ℕ → ℚ) (t : ℕ → Option ℚ) (fuel : ℕ)
    {j : ℕ} (js : List ℕ) (routes : List (List ℕ)) (scheds : List (List ℚ))
    {V V1 : Finset ℕ} {route : List ℕ} {sched : List ℚ}
    (hcond : mkRat 1 2 < x 0 j ∧ j ∉ V)
    (hinner : innerLoopAG n x t fuel [0, j] [0, recordArrival t j] (insert j V) j
      = some (route, sched, V1)) :
    outerLoopAG n x t fuel (j :: js) routes scheds V
      = outerLoopAG n x t fuel js (routes ++ [route]) (scheds ++ [sched]) V1 := by
  rw [outerLoopAG, if_pos hcond, hinner]

lemma innerLoopAG_done {n : ℕ} {x : ℕ → ℕ → ℚ} {t : ℕ → Option ℚ} {fuel : ℕ}
    {route : List ℕ} {sched : List ℚ} {V : Finset ℕ} {r : List ℕ} {s : List ℚ}
    {V2 : Finset ℕ} (h : innerLoopAG n x t fuel route sched V 0 = some (r, s, V2)) :
    r = route ∧ s = sched ∧ V2 = V := by
  cases fuel with
  | zero => rw [innerLoopAG_zero] at h; cases h
  | succ f =>
    rw [innerLoopAG_succ_done] at h
    simp only [Option.some.injEq, Prod.mk.injEq] at h
    exact ⟨h.1.symm, h.2.1.symm, h.2.2.symm⟩

lemma innerLoopAG_extends {n : ℕ} {x : ℕ → ℕ → ℚ} {t : ℕ → Option ℚ} :
    ∀ {fuel : ℕ} {route : List ℕ} {sched : List ℚ} {V : Finset ℕ} {c : ℕ}
      {r : List ℕ} {s : List ℚ} {V2 : Finset ℕ},
      innerLoopAG n x t fuel route sched V c = some (r, s, V2) →
      ∃ tr ts, r = route ++ tr ∧ s = sched ++ ts := by
  intro fuel
  induction fuel with
  | zero => intro route sched V c r s V2 h; rw [innerLoopAG_zero] at h; cases h
  | succ f ih =>
    intro route sched V c r s V2 h
    by_cases hc : c = 0
    · subst hc
      obtain ⟨rfl, rfl, rfl⟩ := innerLoopAG_done h
      exact ⟨[], [], by simp, by simp⟩
    · cases hfn : findNext n x c with
      | none =>
        rw [innerLoopAG_succ_none n x t f route sched V hc hfn] at h
        exact ih h
      | some v =>
        rw [innerLoopAG_succ_some n x t f route sched V hc hfn] at h
        by_cases hv : v = 0
        · rw [if_pos hv] at h
          obtain ⟨tr, ts, rfl, rfl⟩ := ih h
          exact ⟨0 :: tr, 0 :: ts, by simp, by simp⟩
        · rw [if_neg hv] at h
          by_cases hmem : v ∉ V
          · rw [if_pos hmem] at h
            obtain ⟨tr, ts, rfl, rfl⟩ := ih h
            exact ⟨v :: tr, recordArrival t v :: ts, by simp, by simp⟩
          · rw [if_neg hmem] at h
            exact ih h

lemma innerLoopAG_last {n : ℕ} {x : ℕ → ℕ → ℚ} {t : ℕ → Option ℚ} :
    ∀ {fuel : ℕ} {route : List ℕ} {sched : List ℚ} {V : Finset ℕ} {c : ℕ}
      {r : List ℕ} {s : List ℚ} {V2 : Finset ℕ}, c ≠ 0 →
      innerLoopAG n x t fuel route sched V c = some (r, s, V2) →
      r.getLast? = some 0 ∧ s.getLast? = some 0 := by
  intro fuel
  induction fuel with
  | zero => intro route sched V c r s V2 _ h; rw [innerLoopAG_zero] at h; cases h
  | succ f ih =>
    intro route sched V c r s V2 hc h
    cases hfn : findNext n x c with
    | none =>
      rw [innerLoopAG_succ_none n x t f route sched V hc hfn] at h
      exact ih hc h
    | some v =>
      rw [innerLoopAG_succ_some n x t f route sched V hc hfn] at h
      by_cases hv : v = 0
      · rw [if_pos hv] at h
        obtain ⟨rfl, rfl, rfl⟩ := innerLoopAG_done h
        exact ⟨List.getLast?_concat _, List.getLast?_concat _⟩
      · rw [if_neg hv] at h
        by_cases hmem : v ∉ V
        · rw [if_pos hmem] at h
          exact ih hv h
        · rw [if_neg hmem] at h
          exact ih hc h

lemma innerLoopAG_t_congr {n : ℕ} {x : ℕ → ℕ → ℚ} {t t' : ℕ → Option ℚ}
    (ht : ∀ v, v ≠ 0 → t v = t' v) :
    ∀ (fuel : ℕ) (route : List ℕ) (sched : List ℚ) (V : Finset ℕ) (c : ℕ),
      innerLoopAG n x t fuel route sched V c = innerLoopAG n x t' fuel route sched V c := by
  intro fuel
  induction fuel with
  | zero => intro route sched V c; rw [innerLoopAG_zero, innerLoopAG_zero]
  | succ f ih =>
    intro route sched V c
    by_cases hc : c = 0
    · subst hc; rw [innerLoopAG_succ_done, innerLoopAG_succ_done]
    · cases hfn : findNext n x c with
      | none =>
        rw [innerLoopAG_succ_none n x t f route sched V hc hfn,
          innerLoopAG_succ_none n x t' f route sched V hc hfn]
        exact ih _ _ _ _
      | some v =>
        rw [innerLoopAG_succ_some n x t f route sched V hc hfn,
          innerLoopAG_succ_some n x t' f route sched V hc hfn]
        by_cases hv : v = 0
        · rw [if_pos hv, if_pos hv]; exact ih _ _ _ _
        · have hrec : recordArrival t v = recordArrival t' v := by
            rw [recordArrival, recordArrival, ht v hv]
          rw [if_neg hv, if_neg hv, hrec]
          by_cases hmem : v ∉ V
          · rw [if_pos hmem, if_pos hmem]; exact ih _ _ _ _
          · rw [if_neg hmem, if_neg hmem]; exact ih _ _ _ _

lemma outerLoopAG_t_congr {n : ℕ} {x : ℕ → ℕ → ℚ} {t t' : ℕ → Option ℚ}
    (ht : ∀ v, v ≠ 0 → t v = t' v) (fuel : ℕ) :
    ∀ (js : List ℕ) (routes : List (List ℕ)) (scheds : List (List ℚ)) (V : Finset ℕ),
      (∀ j ∈ js, j ≠ 0) →
      outerLoopAG n x t fuel js routes scheds V
        = outerLoopAG n x t' fuel js routes scheds V := by
  intro js
  induction js with
  | nil => intro routes scheds V _; rw [outerLoopAG_nil, outerLoopAG_nil]
  | cons j js ih =>
    intro routes scheds V hjs
    have hj : j ≠ 0 := hjs j (List.mem_cons_self _ _)
    have hrest : ∀ k ∈ js, k ≠ 0 := fun k hk => hjs k (List.mem_cons_of_mem _ hk)
    have hrec : recordArrival t j = recordArrival t' j := by
      rw [recordArrival, recordArrival, ht j hj]
    by_cases hcond : mkRat 1 2 < x 0 j ∧ j ∉ V
    · cases hinner : innerLoopAG n x t' fuel [0, j] [0, recordArrival t' j] (insert j V) j with
      | none =>
        rw [outerLoopAG_cons_none n x t fuel js routes scheds hcond
          (by rw [hrec, innerLoopAG_t_congr ht]; exact hinner),
          outerLoopAG_cons_none n x t' fuel js routes scheds hcond hinner]
      | some out =>
        obtain ⟨route, sched, V1⟩ := out
        rw [outerLoopAG_cons_some n x t fuel js routes scheds hcond
          (by rw [hrec, innerLoopAG_t_congr ht]; exact hinner),
          outerLoopAG_cons_some n x t' fuel js routes scheds hcond hinner]
        exact ih _ _ _ hrest
    · rw [outerLoopAG_cons_skip n x t fuel js routes scheds hcond,
        outerLoopAG_cons_skip n x t' fuel js routes scheds hcond]
      exact ih _ _ _ hrest

lemma outerLoopAG_sched_ends {n : ℕ} {x : ℕ → ℕ → ℚ} {t : ℕ → Option ℚ} {fuel : ℕ} :
    ∀ {js : List ℕ} {routes : List (List ℕ)} {scheds : List (List ℚ)} {V : Finset ℕ}
      {routes2 : List (List ℕ)} {scheds2 : List (List ℚ)} {V2 : Finset ℕ},
      (∀ j ∈ js, j ≠ 0) →
      (∀ s ∈ scheds, s.head? = some 0 ∧ s.getLast? = some 0) →
      outerLoopAG n x t fuel js routes scheds V = some (routes2, scheds2, V2) →
      ∀ s ∈ scheds2, s.head? = some 0 ∧ s.getLast? = some 0 := by
  intro js
  induction js with
  | nil =>
    intro routes scheds V routes2 scheds2 V2 _ hsch h
    rw [outerLoopAG_nil] at h
    simp only [Option.some.injEq, Prod.mk.injEq] at h
    rw [← h.2.1]
    exact hsch
  | cons j js ih =>
    intro routes scheds V routes2 scheds2 V2 hjs hsch h
    have hj : j ≠ 0 := hjs j (List.mem_cons_self _ _)
    have hrest : ∀ k ∈ js, k ≠ 0 := fun k hk => hjs k (List.mem_cons_of_mem _ hk)
    by_cases hcond : mkRat 1 2 < x 0 j ∧ j ∉ V
    · cases hinner : innerLoopAG n x t fuel [0, j] [0, recordArrival t j] (insert j V) j with
      | none =>
        rw [outerLoopAG_cons_none n x t fuel js routes scheds hcond hinner] at h
        cases h
      | some out =>
        obtain ⟨route, sched, V1⟩ := out
        rw [outerLoopAG_cons_some n x t fuel js routes scheds hcond hinner] at h
        have hlast := innerLoopAG_last hj hinner
        obtain ⟨tr, ts, htr, hts⟩ := innerLoopAG_extends hinner
        have hhead : sched.head? = some 0 := by rw [hts]; rfl
        refine ih hrest ?_ h
        intro s hs
        rcases List.mem_append.mp hs with hs | hs
        · exact hsch s hs
        · rw [List.mem_singleton.mp hs]
          exact ⟨hhead, hlast.2⟩
    · rw [outerLoopAG_cons_skip n x t fuel js routes scheds hcond] at h
      exact ih hrest hsch h

/-- C10: in every schedule produced by the agent-level solve, the initial
depot departure (first entry) and the final depot return (last entry) are
recorded as the literal 0 — independently of the solver's arrival-time value
for the depot — and a customer whose solver arrival time is exactly 0 is
likewise recorded as 0 (Python truthiness sends both `None` and `0.0` to the
literal 0). -/
theorem claimC10_depotArrivals (n : ℕ) (x : ℕ → ℕ → ℚ) (t : ℕ → Option ℚ)
    (fuel : ℕ) (routes : List (List ℕ)) (scheds : List (List ℚ))
    (h : extractAG n x t fuel = some (routes, scheds)) :
    (∀ s ∈ scheds, s.head? = some 0 ∧ s.getLast? = some 0) ∧
    (∀ t', (∀ v, v ≠ 0 → t v = t' v) → extractAG n x t' fuel = some (routes, scheds)) ∧
    (∀ v, t v = some 0 → recordArrival t v = 0) := by
  have hjs : ∀ j ∈ List.range' 1 (n - 1), j ≠ 0 := by
    intro j hj
    have := List.mem_range'_1.mp hj
    omega
  refine ⟨?_, ?_, ?_⟩
  · rw [extractAG] at h
    obtain ⟨trip, htrip, hmap⟩ := Option.map_eq_some'.mp h
    obtain ⟨routes1, scheds1, V1⟩ := trip
    have hscheds : scheds1 = scheds := congrArg Prod.snd hmap
    subst hscheds
    exact outerLoopAG_sched_ends hjs (by simp) htrip
  · intro t' ht
    rw [extractAG, ← outerLoopAG_t_congr ht fuel _ _ _ _ hjs]
    exact h
  · intro v hv
    rw [recordArrival, hv]
    simp

theorem claimC10_witness :
    (∀ s ∈ [[(0 : ℚ), 1, 2, 0]], s.head? = some 0 ∧ s.getLast? = some 0) ∧
    (∀ v, tSample v = some 0 → recordArrival tSample v = 0) := by
  have h := claimC10_depotArrivals 3 xTour tSample 3 [[0, 1, 2, 0]] [[(0 : ℚ), 1, 2, 0]]
    (by decide)
  exact ⟨h.1, h.2.2⟩

lemma find?_range' (p : ℕ → Bool) :
    ∀ (len s v : ℕ), ((List.range' s len).find? p = some v ↔
      (s ≤ v ∧ v < s + len ∧ p v = true ∧ ∀ w, s ≤ w → w < v → p w = false)) := by
  intro len
  induction len with
  | zero =>
    intro s v
    constructor
    · intro h; cases h
    · rintro ⟨h1, h2, -⟩; omega
  | succ m ih =>
    intro s v
    rw [List.range'_succ]
    by_cases hps : p s = true
    · rw [List.find?_cons_of_pos _ hps]
      constructor
      · intro h
        have hv : v = s := (Option.some.inj h).symm
        subst hv
        exact ⟨le_rfl, by omega, hps, fun w hw1 hw2 => by omega⟩
      · rintro ⟨h1, h2, h3, h4⟩
        rcases eq_or_lt_of_le h1 with rfl | hlt
        · rfl
        · exact absurd hps (by rw [h4 s le_rfl hlt]; simp)
    · rw [List.find?_cons_of_neg _ hps]
      rw [ih (s + 1) v]
      constructor
      · rintro ⟨h1, h2, h3, h4⟩
        refine ⟨by omega, by omega, h3, fun w hw1 hw2 => ?_⟩
        rcases eq_or_lt_of_le hw1 with rfl | hlt
        · simpa using hps
        · exact h4 w hlt hw2
      · rintro ⟨h1, h2, h3, h4⟩
        have hvs : v ≠ s := by
          rintro rfl
          exact hps h3
        exact ⟨by omega, by omega, h3, fun w hw1 hw2 => h4 w (by omega) hw2⟩

lemma findNext_eq_some {n : ℕ} {x : ℕ → ℕ → ℚ} {c v : ℕ} :
    findNext n x c = some v ↔
      (v < n ∧ c ≠ v ∧ mkRat 1 2 < x c v ∧
        ∀ w, w < v → ¬(c ≠ w ∧ mkRat 1 2 < x c w)) := by
  rw [findNext, List.range_eq_range', find?_range']
  constructor
  · rintro ⟨-, h2, h3, h4⟩
    rw [decide_eq_true_eq] at h3
    refine ⟨by omega, h3.1, h3.2, fun w hw => ?_⟩
    have := h4 w (by omega) hw
    rwa [decide_eq_false_iff_not] at this
  · rintro ⟨h1, h2, h3, h4⟩
    refine ⟨by omega, by omega, by rw [decide_eq_true_eq]; exact ⟨h2, h3⟩,
      fun w hw1 hw2 => by rw [decide_eq_false_iff_not]; exact h4 w hw2⟩

lemma innerLoop_extends {n : ℕ} {x : ℕ → ℕ → ℚ} :
    ∀ {fuel : ℕ} {route : List ℕ} {V : Finset ℕ} {c : ℕ} {r : List ℕ} {V2 : Finset ℕ},
      innerLoop n x fuel route V c = some (r, V2) → ∃ tr, r = route ++ tr := by
  intro fuel
  induction fuel with
  | zero => intro route V c r V2 h; rw [innerLoop_zero] at h; cases h
  | succ f ih =>
    intro route V c r V2 h
    by_cases hc : c = 0
    · subst hc
      rw [innerLoop_succ_done] at h
      simp only [Option.some.injEq, Prod.mk.injEq] at h
      exact ⟨[], by simp [h.1]⟩
    · cases hfn : findNext n x c with
      | none =>
        rw [innerLoop_succ_none n x f route V hc hfn] at h
        exact ih h
      | some v =>
        rw [innerLoop_succ_some n x f route V hc hfn] at h
        by_cases hv : v = 0
        · rw [if_pos hv] at h
          obtain ⟨tr, rfl⟩ := ih h
          exact ⟨0 :: tr, by simp⟩
        · rw [if_neg hv] at h
          by_cases hmem : v ∉ V
          · rw [if_pos hmem] at h
            obtain ⟨tr, rfl⟩ := ih h
            exact ⟨v :: tr, by simp⟩
          · rw [if_neg hmem] at h
            exact ih h

lemma outerLoop_extends {n : ℕ} {x : ℕ → ℕ → ℚ} {fuel : ℕ} :
    ∀ {js : List ℕ} {routes : List (List ℕ)} {V : Finset ℕ}
      {routes2 : List (List ℕ)} {V2 : Finset ℕ},
      outerLoop n x fuel js routes V = some (routes2, V2) →
      ∃ added, routes2 = routes ++ added := by
  intro js
  induction js with
  | nil =>
    intro routes V routes2 V2 h
    rw [outerLoop_nil] at h
    simp only [Option.some.injEq, Prod.mk.injEq] at h
    exact ⟨[], by simp [h.1]⟩
  | cons j js ih =>
    intro routes V routes2 V2 h
    by_cases hcond : mkRat 1 2 < x 0 j ∧ j ∉ V
    · cases hinner : innerLoop n x fuel [0, j] (insert j V) j with
      | none =>
        rw [outerLoop_cons_none n x fuel js routes hcond hinner] at h
        cases h
      | some out =>
        obtain ⟨route, V1⟩ := out
        rw [outerLoop_cons_some n x fuel js routes hcond hinner] at h
        obtain ⟨added, rfl⟩ := ih h
        exact ⟨route :: added, by simp⟩
    · rw [outerLoop_cons_skip n x fuel js routes hcond] at h
      exact ih h

lemma outerLoop_first_route {n : ℕ} {x : ℕ → ℕ → ℚ} {fuel : ℕ} :
    ∀ {js : List ℕ} {V : Finset ℕ} {routes2 : List (List ℕ)} {V2 : Finset ℕ}
      {r : List ℕ} {rest : List (List ℕ)},
      outerLoop n x fuel js [] V = some (routes2, V2) → routes2 = r :: rest →
      ∃ js1 j js2, js = js1 ++ j :: js2 ∧
        (∀ k ∈ js1, ¬(mkRat 1 2 < x 0 k ∧ k ∉ V)) ∧
        (mkRat 1 2 < x 0 j ∧ j ∉ V) ∧
        ∃ V1, innerLoop n x fuel [0, j] (insert j V) j = some (r, V1) := by
  intro js
  induction js with
  | nil =>
    intro V routes2 V2 r rest h hr
    rw [outerLoop_nil] at h
    simp only [Option.some.injEq, Prod.mk.injEq] at h
    rw [← h.1] at hr
    cases hr
  | cons j js ih =>
    intro V routes2 V2 r rest h hr
    by_cases hcond : mkRat 1 2 < x 0 j ∧ j ∉ V
    · cases hinner : innerLoop n x fuel [0, j] (insert j V) j with
      | none =>
        rw [outerLoop_cons_none n x fuel js [] hcond hinner] at h
        cases h
      | some out =>
        obtain ⟨route, V1⟩ := out
        rw [outerLoop_cons_some n x fuel js [] hcond hinner] at h
        obtain ⟨added, hadd⟩ := outerLoop_extends h
        have hroute : route = r := by
          rw [hr] at hadd
          have := congrArg List.head? hadd
          simpa using this.symm
        subst hroute
        exact ⟨[], j, js, by simp, by simp, hcond, V1, hinner⟩
    · rw [outerLoop_cons_skip n x fuel js [] hcond] at h
      obtain ⟨js1, j', js2, hjs, hskip, hcond', hinner⟩ := ih h hr
      exact ⟨j :: js1, j', js2, by rw [hjs]; rfl,
        fun k hk => by
          rcases List.mem_cons.mp hk with rfl | hk
          · exact hcond
          · exact hskip k hk,
        hcond', hinner⟩

lemma mem_left_of_lt_of_pairwise {l1 l2 : List ℕ} {j k : ℕ}
    (hp : List.Pairwise (· < ·) (l1 ++ j :: l2)) (hk : k ∈ l1 ++ j :: l2) (hkj : k < j) :
    k ∈ l1 := by
  rcases List.mem_append.mp hk with h | h
  · exact h
  · rcases List.mem_cons.mp h with rfl | h
    · omega
    · exfalso
      have hpair := (List.pairwise_append.mp hp).2.1
      have hjk : j < k := (List.pairwise_cons.mp hpair).1 k h
      omega

/-- C7: route extraction is deterministic — two runs on the identical solved
assignment give identical routes and schedules — and the tie-break is "lowest
vertex index first" in both scans: the inner scan returns the least vertex with
a selected arc from the current vertex, and the first extracted route starts at
the least customer whose depot arc is selected. -/
theorem claimC7_deterministic (n : ℕ) (x : ℕ → ℕ → ℚ) (t : ℕ → Option ℚ) (fuel : ℕ) :
    (extractRoutes n x fuel = extractRoutes n x fuel ∧
     extractAG n x t fuel = extractAG n x t fuel) ∧
    (∀ c v, findNext n x c = some v →
      v < n ∧ c ≠ v ∧ mkRat 1 2 < x c v ∧
        ∀ w, w < v → ¬(c ≠ w ∧ mkRat 1 2 < x c w)) ∧
    (∀ routes r rest, extractRoutes n x fuel = some routes → routes = r :: rest →
      ∃ j, (mkRat 1 2 < x 0 j ∧ 1 ≤ j ∧ j < n) ∧ r.take 2 = [0, j] ∧
        ∀ k, 1 ≤ k → k < j → ¬(mkRat 1 2 < x 0 k)) := by
  refine ⟨⟨rfl, rfl⟩, ?_, ?_⟩
  · intro c v h
    exact findNext_eq_some.mp h
  · intro routes r rest h hr
    rw [extractRoutes] at h
    obtain ⟨pair, hpair, hmap⟩ := Option.map_eq_some'.mp h
    obtain ⟨routes1, V2⟩ := pair
    have hroutes : routes1 = routes := hmap
    subst hroutes
    obtain ⟨js1, j, js2, hjs, hskip, hcond, V1, hinner⟩ :=
      outerLoop_first_route hpair hr
    obtain ⟨tr, htr⟩ := innerLoop_extends hinner
    have hjmem : j ∈ List.range' 1 (n - 1) := by
      rw [hjs]
      exact List.mem_append.mpr (Or.inr (List.mem_cons_self _ _))
    have hjb := List.mem_range'_1.mp hjmem
    refine ⟨j, ⟨hcond.1, hjb.1, by omega⟩, ?_, ?_⟩
    · rw [htr]
      have : [0, j] ++ tr = ([0, j] ++ tr) := rfl
      calc ([0, j] ++ tr).take 2 = ([0, j] : List ℕ).take 2 ++ tr.take (2 - ([0, j] : List ℕ).length) := by
            rw [List.take_append_eq_append_take]
      _ = [0, j] := by simp
    · intro k hk1 hkj
      have hkmem : k ∈ List.range' 1 (n - 1) := by
        rw [List.mem_range'_1]
        omega
      have hkleft : k ∈ js1 := by
        refine @mem_left_of_lt_of_pairwise js1 js2 j k ?_ ?_ hkj
        · rw [← hjs]
          exact List.pairwise_lt_range' 1 (n - 1) 1
        · rw [← hjs]; exact hkmem
      have := hskip k hkleft
      intro hx
      exact this ⟨hx, Finset.not_mem_empty k⟩

theorem claimC7_witness :
    findNext 3 xTour 1 = some 2 ∧
    (2 < 3 ∧ (1 : ℕ) ≠ 2 ∧ mkRat 1 2 < xTour 1 2 ∧
      ∀ w, w < 2 → ¬((1 : ℕ) ≠ w ∧ mkRat 1 2 < xTour 1 w)) ∧
    (∃ j, (mkRat 1 2 < xTour 0 j ∧ 1 ≤ j ∧ j < 3) ∧
      ([0, 1, 2, 0] : List ℕ).take 2 = [0, j] ∧
      ∀ k, 1 ≤ k → k < j → ¬(mkRat 1 2 < xTour 0 k)) := by
  have h := claimC7_deterministic 3 xTour tSample 3
  exact ⟨by decide, h.2.1 1 2 (by decide),
    h.2.2 [[0, 1, 2, 0]] [0, 1, 2, 0] [] (by decide) rfl⟩

lemma outerLoop_length_bound {n : ℕ} {x : ℕ → ℕ → ℚ} {fuel : ℕ} :
    ∀ {js : List ℕ} {routes : List (List ℕ)} {V : Finset ℕ}
      {routes2 : List (List ℕ)} {V2 : Finset ℕ},
      outerLoop n x fuel js routes V = some (routes2, V2) →
      routes2.length ≤ routes.length
        + (js.filter (fun j => decide (mkRat 1 2 < x 0 j))).length := by
  intro js
  induction js with
  | nil =>
    intro routes V routes2 V2 h
    rw [outerLoop_nil] at h
    simp only [Option.some.injEq, Prod.mk.injEq] at h
    simp [← h.1]
  | cons j js ih =>
    intro routes V routes2 V2 h
    by_cases hcond : mkRat 1 2 < x 0 j ∧ j ∉ V
    · cases hinner : innerLoop n x fuel [0, j] (insert j V) j with
      | none =>
        rw [outerLoop_cons_none n x fuel js routes hcond hinner] at h
        cases h
      | some out =>
        obtain ⟨route, V1⟩ := out
        rw [outerLoop_cons_some n x fuel js routes hcond hinner] at h
        have hbound := ih h
        have hp : decide (mkRat 1 2 < x 0 j) = true := decide_eq_true hcond.1
        rw [List.filter_cons, if_pos hp]
        simp only [List.length_append, List.length_cons, List.length_nil] at hbound ⊢
        omega
    · rw [outerLoop_cons_skip n x fuel js routes hcond] at h
      have hbound := ih h
      rw [List.filter_cons]
      by_cases hp : decide (mkRat 1 2 < x 0 j) = true
      · rw [if_pos hp]
        simp only [List.length_cons]
        omega
      · rw [if_neg hp]
        exact hbound

lemma filter_length_le_sum {x : ℕ → ℕ → ℚ} {n : ℕ} (hbin : binaryAssign n x) :
    ∀ {l : List ℕ}, (∀ a ∈ l, 1 ≤ a ∧ a < n) →
      ((l.filter (fun j => decide (mkRat 1 2 < x 0 j))).length : ℚ)
        ≤ (l.map (fun j => x 0 j)).sum := by
  intro l
  induction l with
  | nil => simp
  | cons a t ih =>
    intro hmem
    have ha := hmem a (List.mem_cons_self _ _)
    have hrest : ∀ b ∈ t, 1 ≤ b ∧ b < n := fun b hb => hmem b (List.mem_cons_of_mem _ hb)
    have hxa : x 0 a = 0 ∨ x 0 a = 1 := hbin 0 a (by omega) ha.2 (by omega)
    rw [List.filter_cons, List.map_cons, List.sum_cons]
    by_cases hp : mkRat 1 2 < x 0 a
    · have hxa1 : x 0 a = 1 := by
        rcases hxa with h0 | h1
        · rw [h0] at hp; norm_num at hp
        · exact h1
      rw [if_pos (decide_eq_true hp), hxa1]
      simp only [List.length_cons]
      push_cast
      linarith [ih hrest]
    · have hge : 0 ≤ x 0 a := by rcases hxa with h | h <;> simp [h]
      rw [if_neg (by simpa using hp)]
      linarith [ih hrest]

/-- C5: for a 0/1 arc assignment satisfying the depot-flow constraints, route
extraction produces at most n_vehicles routes (each extracted route consumes a
distinct customer whose depot arc is selected, and at most n_vehicles depot
arcs are selected). -/
theorem claimC5_routeCount (n K : ℕ) (x : ℕ → ℕ → ℚ) (fuel : ℕ)
    (hbin : binaryAssign n x) (hdep : depotFlow n K x)
    (routes : List (List ℕ)) (h : extractRoutes n x fuel = some routes) :
    routes.length ≤ K := by
  rw [extractRoutes] at h
  obtain ⟨pair, hpair, hmap⟩ := Option.map_eq_some'.mp h
  obtain ⟨routes1, V2⟩ := pair
  have hroutes : routes1 = routes := hmap
  subst hroutes
  have hlen := outerLoop_length_bound hpair
  have hmem : ∀ a ∈ List.range' 1 (n - 1), 1 ≤ a ∧ a < n := by
    intro a ha
    have := List.mem_range'_1.mp ha
    omega
  have hsum := filter_length_le_sum hbin hmem
  have hK : ((List.range' 1 (n - 1)).map (fun j => x 0 j)).sum ≤ (K : ℚ) := by
    have := hdep.1
    rwa [custRange] at this
  have h2 : (((List.range' 1 (n - 1)).filter
      (fun j => decide (mkRat 1 2 < x 0 j))).length : ℚ) ≤ (K : ℚ) := le_trans hsum hK
  have h3 : ((List.range' 1 (n - 1)).filter
      (fun j => decide (mkRat 1 2 < x 0 j))).length ≤ K := by exact_mod_cast h2
  simp only [List.length_nil] at hlen
  omega

theorem claimC5_witness : ([[0, 1, 2, 0]] : List (List ℕ)).length ≤ 1 := by
  refine claimC5_routeCount 3 1 xTour 3 ?_ ?_ [[0, 1, 2, 0]] (by decide)
  · intro i j hi hj hne
    interval_cases i <;> interval_cases j <;> decide
  · unfold depotFlow custRange
    rw [(by decide : List.range' 1 (3 - 1) = [1, 2])]
    norm_num [xTour]


lemma half_lt_one : mkRat 1 2 < (1 : ℚ) := by
  rw [Rat.mkRat_eq_div]
  norm_num

lemma not_half_lt_zero : ¬ mkRat 1 2 < (0 : ℚ) := by
  rw [Rat.mkRat_eq_div]
  norm_num

lemma list_sum_zero {f : ℕ → ℚ} :
    ∀ {l : List ℕ}, (∀ a ∈ l, f a = 0 ∨ f a = 1) → (l.map f).sum = 0 →
      ∀ a ∈ l, f a = 0 := by
  intro l
  induction l with
  | nil => intro _ _ a ha; cases ha
  | cons b t ih =>
    intro hbin hsum a ha
    rw [List.map_cons, List.sum_cons] at hsum
    have hbt : ∀ c ∈ t, f c = 0 ∨ f c = 1 :=
      fun c hc => hbin c (List.mem_cons_of_mem _ hc)
    have hnn : 0 ≤ (t.map f).sum := by
      apply List.sum_nonneg
      intro y hy
      obtain ⟨c, hc, rfl⟩ := List.mem_map.mp hy
      rcases hbt c hc with h | h <;> simp [h]
    have hfb : 0 ≤ f b := by
      rcases hbin b (List.mem_cons_self _ _) with h | h <;> simp [h]
    have hb0 : f b = 0 := by linarith
    have ht0 : (t.map f).sum = 0 := by linarith
    rcases List.mem_cons.mp ha with rfl | ha
    · exact hb0
    · exact ih hbt ht0 a ha

lemma list_sum_one {f : ℕ → ℚ} :
    ∀ {l : List ℕ}, l.Nodup → (∀ a ∈ l, f a = 0 ∨ f a = 1) → (l.map f).sum = 1 →
      ∃ a ∈ l, f a = 1 ∧ ∀ b ∈ l, b ≠ a → f b = 0 := by
  intro l
  induction l with
  | nil => intro _ _ hsum; norm_num at hsum
  | cons b t ih =>
    intro hnd hbin hsum
    rw [List.map_cons, List.sum_cons] at hsum
    have hbt : ∀ c ∈ t, f c = 0 ∨ f c = 1 :=
      fun c hc => hbin c (List.mem_cons_of_mem _ hc)
    rcases hbin b (List.mem_cons_self _ _) with hb | hb
    · rw [hb] at hsum
      have ht1 : (t.map f).sum = 1 := by linarith
      obtain ⟨a, ha, ha1, harest⟩ := ih (List.Nodup.of_cons hnd) hbt ht1
      refine ⟨a, List.mem_cons_of_mem _ ha, ha1, ?_⟩
      intro c hc hca
      rcases List.mem_cons.mp hc with rfl | hc
      · exact hb
      · exact harest c hc hca
    · rw [hb] at hsum
      have ht0 : (t.map f).sum = 0 := by linarith
      refine ⟨b, List.mem_cons_self _ _, hb, ?_⟩
      intro c hc hcb
      rcases List.mem_cons.mp hc with rfl | hc
      · exact absurd rfl hcb
      · exact list_sum_zero hbt ht0 c hc

lemma mem_others {n j a : ℕ} : a ∈ others n j ↔ a < n ∧ a ≠ j := by
  rw [others, List.mem_filter, List.mem_range, decide_eq_true_eq]

lemma nodup_others (n j : ℕ) : (others n j).Nodup :=
  List.Nodup.filter _ (List.nodup_range n)

lemma out_arc_unique {n : ℕ} {x : ℕ → ℕ → ℚ} (hbin : binaryAssign n x)
    (hvisit : visitOnce n x) {c : ℕ} (hc1 : 1 ≤ c) (hc2 : c < n) :
    ∃ v, v < n ∧ v ≠ c ∧ x c v = 1 ∧ ∀ w, w < n → w ≠ c → w ≠ v → x c w = 0 := by
  have hsum := hvisit.2 c hc1 hc2
  have hb : ∀ a ∈ others n c, x c a = 0 ∨ x c a = 1 := by
    intro a ha
    have := mem_others.mp ha
    exact hbin c a hc2 this.1 (fun h => this.2 h.symm)
  obtain ⟨a, ha, ha1, harest⟩ := list_sum_one (nodup_others n c) hb hsum
  have hma := mem_others.mp ha
  refine ⟨a, hma.1, hma.2, ha1, ?_⟩
  intro w hw1 hw2 hw3
  exact harest w (mem_others.mpr ⟨hw1, hw2⟩) hw3

lemma in_arc_unique {n : ℕ} {x : ℕ → ℕ → ℚ} (hbin : binaryAssign n x)
    (hvisit : visitOnce n x) {s : ℕ} (hs1 : 1 ≤ s) (hs2 : s < n) :
    ∃ p, p < n ∧ p ≠ s ∧ x p s = 1 ∧ ∀ w, w < n → w ≠ s → w ≠ p → x w s = 0 := by
  have hsum := hvisit.1 s hs1 hs2
  have hb : ∀ a ∈ others n s, x a s = 0 ∨ x a s = 1 := by
    intro a ha
    have := mem_others.mp ha
    exact hbin a s this.1 hs2 this.2
  obtain ⟨a, ha, ha1, harest⟩ := list_sum_one (nodup_others n s) hb hsum
  have hma := mem_others.mp ha
  refine ⟨a, hma.1, hma.2, ha1, ?_⟩
  intro w hw1 hw2 hw3
  exact harest w (mem_others.mpr ⟨hw1, hw2⟩) hw3

lemma in_arc_eq {n : ℕ} {x : ℕ → ℕ → ℚ} (hbin : binaryAssign n x)
    (hvisit : visitOnce n x) {s a b : ℕ} (hs1 : 1 ≤ s) (hs2 : s < n)
    (ha : a < n) (hasne : a ≠ s) (hax : x a s = 1)
    (hb : b < n) (hbsne : b ≠ s) (hbx : x b s = 1) : a = b := by
  obtain ⟨p, hp1, hp2, hpx, huniq⟩ := in_arc_unique hbin hvisit hs1 hs2
  have hap : a = p := by
    by_contra hne
    rw [huniq a ha hasne hne] at hax
    norm_num at hax
  have hbp : b = p := by
    by_contra hne
    rw [huniq b hb hbsne hne] at hbx
    norm_num at hbx
  rw [hap, hbp]

lemma out_arc_eq {n : ℕ} {x : ℕ → ℕ → ℚ} (hbin : binaryAssign n x)
    (hvisit : visitOnce n x) {c a b : ℕ} (hc1 : 1 ≤ c) (hc2 : c < n)
    (ha : a < n) (hacne : a ≠ c) (hax : x c a = 1)
    (hb : b < n) (hbcne : b ≠ c) (hbx : x c b = 1) : a = b := by
  obtain ⟨v, hv1, hv2, hvx, huniq⟩ := out_arc_unique hbin hvisit hc1 hc2
  have hav : a = v := by
    by_contra hne
    rw [huniq a ha hacne hne] at hax
    norm_num at hax
  have hbv : b = v := by
    by_contra hne
    rw [huniq b hb hbcne hne] at hbx
    norm_num at hbx
  rw [hav, hbv]

lemma findNext_customer {n : ℕ} {x : ℕ → ℕ → ℚ}
    {c v : ℕ} (hv : v < n) (hvne : v ≠ c) (hx : x c v = 1)
    (huniq : ∀ w, w < n → w ≠ c → w ≠ v → x c w = 0) :
    findNext n x c = some v := by
  rw [findNext_eq_some]
  refine ⟨hv, fun h => hvne h.symm, by rw [hx]; exact half_lt_one, ?_⟩
  intro w hw
  rintro ⟨hwc, hwx⟩
  have hwn : w < n := by omega
  have hwv : w ≠ v := by omega
  rw [huniq w hwn (fun h => hwc h.symm) hwv] at hwx
  exact not_half_lt_zero hwx

lemma mtz_increase {n : ℕ} {x : ℕ → ℕ → ℚ} {u : ℕ → ℚ} (hmtz : mtzHolds n x u)
    {a b : ℕ} (ha1 : 1 ≤ a) (ha2 : a < n) (hb1 : 1 ≤ b) (hb2 : b < n)
    (hab : a ≠ b) (hx : x a b = 1) : u a + 1 ≤ u b := by
  have := hmtz.2 a b ha1 ha2 hb1 hb2 hab
  rw [hx] at this
  linarith

lemma chain'_pred {R : ℕ → ℕ → Prop} :
    ∀ {l : List ℕ}, List.Chain' R l → ∀ s ∈ l, l.head? = some s ∨ ∃ a ∈ l, R a s := by
  intro l
  induction l with
  | nil => intro _ s hs; cases hs
  | cons b t ih =>
    intro hch s hs
    rcases List.mem_cons.mp hs with rfl | hs
    · left; rfl
    · right
      cases t with
      | nil => cases hs
      | cons y ys =>
        have hR : R b y := (List.chain'_cons.mp hch).1
        have hch2 : List.Chain' R (y :: ys) := (List.chain'_cons.mp hch).2
        rcases ih hch2 s hs with hhead | ⟨a, ha, hRa⟩
        · have hy : y = s := by simpa using hhead
          subst hy
          exact ⟨b, List.mem_cons_self _ _, hR⟩
        · exact ⟨a, List.mem_cons_of_mem _ ha, hRa⟩

lemma chain'_succ {R : ℕ → ℕ → Prop} :
    ∀ {l : List ℕ}, List.Chain' R l → ∀ s ∈ l, l.getLast? = some s ∨ ∃ b ∈ l, R s b := by
  intro l
  induction l with
  | nil => intro _ s hs; cases hs
  | cons b t ih =>
    intro hch s hs
    cases t with
    | nil =>
      rcases List.mem_cons.mp hs with rfl | hs
      · left; rfl
      · cases hs
    | cons y ys =>
      have hR : R b y := (List.chain'_cons.mp hch).1
      have hch2 : List.Chain' R (y :: ys) := (List.chain'_cons.mp hch).2
      rcases List.mem_cons.mp hs with rfl | hs
      · exact Or.inr ⟨y, List.mem_cons_of_mem _ (List.mem_cons_self _ _), hR⟩
      · rcases ih hch2 s hs with hlast | ⟨c, hc, hRc⟩
        · left
          rw [List.getLast?_cons_cons]
          exact hlast
        · exact Or.inr ⟨c, List.mem_cons_of_mem _ hc, hRc⟩

lemma union_toFinset_concat (V0 : Finset ℕ) (p : List ℕ) (v : ℕ) :
    insert v (V0 ∪ p.toFinset) = V0 ∪ (p ++ [v]).toFinset := by
  ext a
  simp [List.toFinset_append, Finset.mem_union, Finset.mem_insert, or_comm, or_assoc]
  tauto

lemma sdiff_union_singleton_card {A V : Finset ℕ} {v : ℕ}
    (hvA : v ∈ A) (hvV : v ∉ V) :
    (A \ (V ∪ {v})).card + 1 = (A \ V).card := by
  have hmem : v ∈ A \ V := Finset.mem_sdiff.mpr ⟨hvA, hvV⟩
  have hset : A \ (V ∪ {v}) = (A \ V).erase v := by
    ext a
    simp only [Finset.mem_sdiff, Finset.mem_union, Finset.mem_singleton, Finset.mem_erase]
    tauto
  rw [hset, Finset.card_erase_of_mem hmem]
  have hpos : 0 < (A \ V).card := Finset.card_pos.mpr ⟨v, hmem⟩
  omega

lemma innerLoop_run {n : ℕ} {x : ℕ → ℕ → ℚ} {u : ℕ → ℚ}
    (hbin : binaryAssign n x) (hvisit : visitOnce n x) (hmtz : mtzHolds n x u) :
    ∀ (fuel : ℕ) (p : List ℕ) (V0 : Finset ℕ) (c : ℕ),
      p ≠ [] →
      (∀ v ∈ p, 1 ≤ v ∧ v < n) →
      p.Nodup →
      List.Chain' (fun a b => x a b = 1) p →
      p.getLast? = some c →
      (∀ w ∈ p, u w ≤ u c) →
      (∀ w ∈ p, w ∉ V0) →
      (∀ v ∈ V0, 1 ≤ v ∧ v < n) →
      closedIn x V0 →
      (Finset.Ico 1 n \ (V0 ∪ p.toFinset)).card + 2 ≤ fuel →
      ∃ q last,
        innerLoop n x fuel (0 :: p) (V0 ∪ p.toFinset) c
          = some ((0 :: (p ++ q)) ++ [0], V0 ∪ (p ++ q).toFinset) ∧
        (∀ v ∈ q, (1 ≤ v ∧ v < n) ∧ v ∉ V0 ∧ v ∉ p) ∧
        (p ++ q).Nodup ∧
        List.Chain' (fun a b => x a b = 1) (p ++ q) ∧
        (p ++ q).getLast? = some last ∧ x last 0 = 1 := by
  intro fuel
  induction fuel with
  | zero =>
    intro p V0 c _ _ _ _ _ _ _ _ _ hfuel
    omega
  | succ f ih =>
    intro p V0 c hne hcust hnd hchain hlastp humono hdisj hV0cust hV0closed hfuel
    have hcmem : c ∈ p := by
      have h2 := List.getLast?_eq_getLast p hne
      rw [hlastp] at h2
      have h3 : c = p.getLast hne := Option.some.inj h2
      rw [h3]
      exact List.getLast_mem hne
    have hc := hcust c hcmem
    have hc0 : c ≠ 0 := by omega
    obtain ⟨v, hvn, hvc, hvx, hvuniq⟩ := out_arc_unique hbin hvisit hc.1 hc.2
    have hfind : findNext n x c = some v := findNext_customer hvn hvc hvx hvuniq
    rw [innerLoop_succ_some n x f (0 :: p) (V0 ∪ p.toFinset) hc0 hfind]
    by_cases hv0 : v = 0
    · -- close the route
      subst hv0
      rw [if_pos rfl]
      cases f with
      | zero => omega
      | succ g =>
        rw [innerLoop_succ_done]
        refine ⟨[], c, ?_, by simp, by simpa using hnd, by simpa using hchain,
          by simpa using hlastp, hvx⟩
        rw [List.append_nil]
    · -- advance to the unvisited customer v
      rw [if_neg hv0]
      have hv1 : 1 ≤ v := by omega
      -- v is not on the current path p
      have hvtail : u c + 1 ≤ u v :=
        mtz_increase hmtz hc.1 hc.2 hv1 hvn (fun h => hvc h.symm) hvx
      have hvp : v ∉ p := by
        intro hvp
        have := humono v hvp
        linarith
      -- v is not among the previously visited customers
      have hvV0 : v ∉ V0 := by
        intro hvV0
        rcases hV0closed v hvV0 with h0 | ⟨c2, hc2V, hc2ne, hc2x⟩
        · have : (0 : ℕ) = c :=
            in_arc_eq hbin hvisit hv1 hvn (by omega) (by omega) h0 hc.2
              (fun h => hvc h.symm) hvx
          omega
        · have hc2 := hV0cust c2 hc2V
          have hcc : c2 = c :=
            in_arc_eq hbin hvisit hv1 hvn hc2.2 hc2ne hc2x hc.2
              (fun h => hvc h.symm) hvx
          rw [hcc] at hc2V
          exact hdisj c hcmem hc2V
      have hvnotin : v ∉ V0 ∪ p.toFinset := by
        rw [Finset.mem_union]
        rintro (h | h)
        · exact hvV0 h
        · exact hvp (List.mem_toFinset.mp h)
      rw [if_pos hvnotin]
      -- recurse on the extended path p ++ [v]
      have hlist : (0 :: p) ++ [v] = 0 :: (p ++ [v]) := rfl
      have hset : insert v (V0 ∪ p.toFinset) = V0 ∪ (p ++ [v]).toFinset :=
        union_toFinset_concat V0 p v
      rw [hlist, hset]
      have hcard : (Finset.Ico 1 n \ (V0 ∪ (p ++ [v]).toFinset)).card + 2 ≤ f := by
        have hvA : v ∈ Finset.Ico 1 n := Finset.mem_Ico.mpr ⟨hv1, hvn⟩
        have h1 : (Finset.Ico 1 n \ ((V0 ∪ p.toFinset) ∪ {v})).card + 1
            = (Finset.Ico 1 n \ (V0 ∪ p.toFinset)).card :=
          sdiff_union_singleton_card hvA hvnotin
        have h2 : (V0 ∪ p.toFinset) ∪ {v} = V0 ∪ (p ++ [v]).toFinset := by
          rw [← hset]
          ext a
          simp only [Finset.mem_union, Finset.mem_insert, Finset.mem_singleton]
          tauto
        rw [h2] at h1
        omega
      obtain ⟨q, last, heq, hq, hnd2, hchain2, hlast2, hlast0⟩ :=
        ih (p ++ [v]) V0 v (by simp)
          (by
            intro w hw
            rcases List.mem_append.mp hw with hw | hw
            · exact hcust w hw
            · rw [List.mem_singleton.mp hw]
              exact ⟨hv1, hvn⟩)
          (by
            rw [List.nodup_append]
            exact ⟨hnd, List.nodup_singleton v, by
              intro a ha hav
              rw [List.mem_singleton.mp hav] at ha
              exact hvp ha⟩)
          (by
            rw [List.chain'_append]
            refine ⟨hchain, List.chain'_singleton v, ?_⟩
            intro a ha b hb
            rw [hlastp] at ha
            have ha2 : c = a := Option.mem_some_iff.mp ha
            have hb2 : v = b := Option.mem_some_iff.mp (by simpa using hb)
            rw [← ha2, ← hb2]
            exact hvx)
          (List.getLast?_concat _)
          (by
            intro w hw
            rcases List.mem_append.mp hw with hw | hw
            · have := humono w hw
              linarith
            · rw [List.mem_singleton.mp hw])
          (by
            intro w hw
            rcases List.mem_append.mp hw with hw | hw
            · exact hdisj w hw
            · rw [List.mem_singleton.mp hw]
              exact hvV0)
          hV0cust hV0closed hcard
      refine ⟨v :: q, last, ?_, ?_, ?_, ?_, ?_, hlast0⟩
      · rw [heq]
        have hl2 : (p ++ [v]) ++ q = p ++ (v :: q) := by
          rw [List.append_assoc]
          rfl
        rw [hl2]
      · intro w hw
        rcases List.mem_cons.mp hw with rfl | hw
        · exact ⟨⟨hv1, hvn⟩, hvV0, hvp⟩
        · obtain ⟨hb, hw0, hwp⟩ := hq w hw
          exact ⟨hb, hw0, fun hc => hwp (List.mem_append.mpr (Or.inl hc))⟩
      · have hl2 : (p ++ [v]) ++ q = p ++ (v :: q) := by
          rw [List.append_assoc]; rfl
        rw [← hl2]
        exact hnd2
      · have hl2 : (p ++ [v]) ++ q = p ++ (v :: q) := by
          rw [List.append_assoc]; rfl
        rw [← hl2]
        exact hchain2
      · have hl2 : (p ++ [v]) ++ q = p ++ (v :: q) := by
          rw [List.append_assoc]; rfl
        rw [← hl2]
        exact hlast2

lemma chain'_and_ne {R : ℕ → ℕ → Prop} :
    ∀ {l : List ℕ}, List.Chain' R l → l.Nodup →
      List.Chain' (fun a b => R a b ∧ a ≠ b) l := by
  intro l
  induction l with
  | nil => intro _ _; exact List.chain'_nil
  | cons b t ih =>
    intro hch hnd
    cases t with
    | nil => simp
    | cons y ys =>
      rw [List.chain'_cons] at hch ⊢
      refine ⟨⟨hch.1, ?_⟩, ih hch.2 (List.Nodup.of_cons hnd)⟩
      intro hby
      rw [List.nodup_cons] at hnd
      exact hnd.1 (hby ▸ List.mem_cons_self _ _)

lemma sel_eq_one {n : ℕ} {x : ℕ → ℕ → ℚ} (hbin : binaryAssign n x) {i j : ℕ}
    (hi : i < n) (hj : j < n) (hne : i ≠ j) (h : mkRat 1 2 < x i j) : x i j = 1 := by
  rcases hbin i j hi hj hne with h0 | h1
  · rw [h0] at h
    exact absurd h not_half_lt_zero
  · exact h1

lemma route_count {v : ℕ} (hv : v ≠ 0) (l : List ℕ) (hnd : l.Nodup) :
    ((0 :: l) ++ [0]).count v = if v ∈ l then 1 else 0 := by
  have hvo : (0 : ℕ) ≠ v := Ne.symm hv
  rw [List.count_append, List.count_cons, List.count_singleton]
  by_cases hm : v ∈ l
  · rw [if_pos hm, List.count_eq_one_of_mem hnd hm]
    simp [hvo]
  · rw [if_neg hm, List.count_eq_zero.mpr hm]
    simp [hvo]

lemma outerLoop_run {n : ℕ} {x : ℕ → ℕ → ℚ} {u : ℕ → ℚ}
    (hbin : binaryAssign n x) (hvisit : visitOnce n x) (hmtz : mtzHolds n x u) :
    ∀ (js : List ℕ) (routes : List (List ℕ)) (V0 : Finset ℕ),
      (∀ j ∈ js, 1 ≤ j ∧ j < n) →
      goodVisited n x V0 →
      (∀ v, 1 ≤ v → v < n →
        ((routes.map (fun r => r.count v)).sum = if v ∈ V0 then 1 else 0)) →
      (∀ r ∈ routes, r.head? = some 0 ∧ r.getLast? = some 0) →
      ∃ routes2 V2,
        outerLoop n x n js routes V0 = some (routes2, V2) ∧
        (∀ v ∈ V0, v ∈ V2) ∧ goodVisited n x V2 ∧
        (∀ v, 1 ≤ v → v < n →
          ((routes2.map (fun r => r.count v)).sum = if v ∈ V2 then 1 else 0)) ∧
        (∀ r ∈ routes2, r.head? = some 0 ∧ r.getLast? = some 0) ∧
        (∀ j ∈ js, mkRat 1 2 < x 0 j → j ∈ V2) := by
  intro js
  induction js with
  | nil =>
    intro routes V0 _ hgood hcount hends
    exact ⟨routes, V0, outerLoop_nil n x n routes V0, fun v hv => hv, hgood, hcount,
      hends, by simp⟩
  | cons j js ih =>
    intro routes V0 hjs hgood hcount hends
    have hj := hjs j (List.mem_cons_self _ _)
    have hjs2 : ∀ k ∈ js, 1 ≤ k ∧ k < n := fun k hk => hjs k (List.mem_cons_of_mem _ hk)
    by_cases hcond : mkRat 1 2 < x 0 j ∧ j ∉ V0
    · have hfuel : (Finset.Ico 1 n \ (V0 ∪ ([j] : List ℕ).toFinset)).card + 2 ≤ n := by
        have hsub : Finset.Ico 1 n \ (V0 ∪ ([j] : List ℕ).toFinset)
            ⊆ (Finset.Ico 1 n).erase j := by
          intro a ha
          rw [Finset.mem_sdiff] at ha
          rw [Finset.mem_erase]
          refine ⟨?_, ha.1⟩
          intro haj
          apply ha.2
          rw [haj]
          simp
        have hcard := Finset.card_le_card hsub
        have hcard2 : ((Finset.Ico 1 n).erase j).card = n - 1 - 1 := by
          rw [Finset.card_erase_of_mem (Finset.mem_Ico.mpr ⟨hj.1, hj.2⟩), Nat.card_Ico]
        omega
      obtain ⟨q, last, heq, hq, hnd2, hchain2, hlast2, hlast0⟩ :=
        innerLoop_run hbin hvisit hmtz n [j] V0 j (by simp)
          (by intro w hw; rw [List.mem_singleton.mp hw]; exact hj)
          (List.nodup_singleton j) (List.chain'_singleton j) rfl
          (by intro w hw; rw [List.mem_singleton.mp hw])
          (by intro w hw; rw [List.mem_singleton.mp hw]; exact hcond.2)
          hgood.1 hgood.2.1 hfuel
      have hset : V0 ∪ ([j] : List ℕ).toFinset = insert j V0 := by
        ext a
        simp [or_comm]
      rw [hset] at heq
      have hjq : ([j] : List ℕ) ++ q = j :: q := rfl
      rw [hjq] at heq hnd2 hchain2 hlast2
      rw [outerLoop_cons_some n x n js routes hcond heq]
      -- properties of the new route and its customers
      have hcustl : ∀ w ∈ j :: q, 1 ≤ w ∧ w < n := by
        intro w hw
        rcases List.mem_cons.mp hw with rfl | hw
        · exact hj
        · exact (hq w hw).1
      have hdisjl : ∀ w ∈ j :: q, w ∉ V0 := by
        intro w hw
        rcases List.mem_cons.mp hw with rfl | hw
        · exact hcond.2
        · exact (hq w hw).2.1
      have hx0j : x 0 j = 1 := sel_eq_one hbin (by omega) hj.2 (by omega) hcond.1
      have hchainx := chain'_and_ne hchain2 hnd2
      -- the new visited set
      set V1 := V0 ∪ (j :: q).toFinset with hV1
      have hmemV1 : ∀ w ∈ j :: q, w ∈ V1 := by
        intro w hw
        rw [hV1, Finset.mem_union, List.mem_toFinset]
        exact Or.inr hw
      have hV0V1 : ∀ w ∈ V0, w ∈ V1 := by
        intro w hw
        rw [hV1, Finset.mem_union]
        exact Or.inl hw
      have hgood1 : goodVisited n x V1 := by
        refine ⟨?_, ?_, ?_⟩
        · intro w hw
          rw [hV1, Finset.mem_union, List.mem_toFinset] at hw
          rcases hw with hw | hw
          · exact hgood.1 w hw
          · exact hcustl w hw
        · intro s hs
          rw [hV1, Finset.mem_union, List.mem_toFinset] at hs
          rcases hs with hs | hs
          · rcases hgood.2.1 s hs with h0 | ⟨c, hcV, hcne, hcx⟩
            · exact Or.inl h0
            · exact Or.inr ⟨c, hV0V1 c hcV, hcne, hcx⟩
          · rcases chain'_pred hchainx s hs with hhead | ⟨a, ha, hax, hane⟩
            · have hsj : j = s := by simpa using hhead
              rw [← hsj]
              exact Or.inl hx0j
            · exact Or.inr ⟨a, hmemV1 a ha, hane, hax⟩
        · intro s hs
          rw [hV1, Finset.mem_union, List.mem_toFinset] at hs
          rcases hs with hs | hs
          · rcases hgood.2.2 s hs with h0 | ⟨c, hcV, hcne, hcx⟩
            · exact Or.inl h0
            · exact Or.inr ⟨c, hV0V1 c hcV, hcne, hcx⟩
          · rcases chain'_succ hchainx s hs with hlasts | ⟨b, hb, hbx, hbne⟩
            · rw [hlast2] at hlasts
              have : last = s := Option.some.inj hlasts
              rw [← this]
              exact Or.inl hlast0
            · exact Or.inr ⟨b, hmemV1 b hb, Ne.symm hbne, hbx⟩
      obtain ⟨routes2, V2, houter, hsub2, hgood2, hcount2, hends2, hsel2⟩ :=
        ih (routes ++ [(0 :: (j :: q)) ++ [0]]) V1 hjs2 hgood1
          (by
            intro v h1 h2
            rw [List.map_append, List.sum_append]
            simp only [List.map_cons, List.map_nil, List.sum_cons, List.sum_nil, add_zero]
            rw [hcount v h1 h2, route_count (by omega) _ hnd2]
            by_cases hvV0 : v ∈ V0
            · have hvnotl : v ∉ (j :: q) := fun hvl => hdisjl v hvl hvV0
              rw [if_pos hvV0, if_neg hvnotl, if_pos (hV0V1 v hvV0)]
            · by_cases hvl : v ∈ j :: q
              · rw [if_neg hvV0, if_pos hvl, if_pos (hmemV1 v hvl)]
              · rw [if_neg hvV0, if_neg hvl, if_neg (by
                  rw [hV1, Finset.mem_union, List.mem_toFinset]
                  rintro (h | h)
                  · exact hvV0 h
                  · exact hvl h)])
          (by
            intro r hr
            rcases List.mem_append.mp hr with hr | hr
            · exact hends r hr
            · rw [List.mem_singleton.mp hr]
              exact ⟨rfl, List.getLast?_concat _⟩)
      refine ⟨routes2, V2, houter, fun w hw => hsub2 w (hV0V1 w hw), hgood2, hcount2,
        hends2, ?_⟩
      intro k hk hsel
      rcases List.mem_cons.mp hk with rfl | hk
      · exact hsub2 k (hmemV1 k (List.mem_cons_self _ _))
      · exact hsel2 k hk hsel
    · rw [outerLoop_cons_skip n x n js routes hcond]
      obtain ⟨routes2, V2, houter, hsub2, hgood2, hcount2, hends2, hsel2⟩ :=
        ih routes V0 hjs2 hgood hcount hends
      refine ⟨routes2, V2, houter, hsub2, hgood2, hcount2, hends2, ?_⟩
      intro k hk hsel
      rcases List.mem_cons.mp hk with rfl | hk
      · have hkV0 : k ∈ V0 := by
          by_contra hkV0
          exact hcond ⟨hsel, hkV0⟩
        exact hsub2 k hkV0
      · exact hsel2 k hk hsel

lemma pred_step {n : ℕ} {x : ℕ → ℕ → ℚ} {u : ℕ → ℚ}
    (hbin : binaryAssign n x) (hvisit : visitOnce n x) (hmtz : mtzHolds n x u)
    {V : Finset ℕ} (hgood : goodVisited n x V)
    (hdepot : ∀ j, 1 ≤ j → j < n → x 0 j = 1 → j ∈ V)
    {v : ℕ} (h1 : 1 ≤ v) (h2 : v < n) (hv : v ∉ V) :
    ∃ p, 1 ≤ p ∧ p < n ∧ p ∉ V ∧ u p + 1 ≤ u v := by
  obtain ⟨p, hp2, hpv, hpx, hpuniq⟩ := in_arc_unique hbin hvisit h1 h2
  have hp0 : p ≠ 0 := by
    intro h
    rw [h] at hpx
    exact hv (hdepot v h1 h2 hpx)
  have hp1 : 1 ≤ p := by omega
  have hpV : p ∉ V := by
    intro hpV
    rcases hgood.2.2 p hpV with h0 | ⟨c, hcV, hcne, hcx⟩
    · have h0v : (0 : ℕ) = v :=
        out_arc_eq hbin hvisit hp1 hp2 (by omega) (Ne.symm hp0) h0 h2 (Ne.symm hpv) hpx
      omega
    · have hcb := hgood.1 c hcV
      have hcv : c = v :=
        out_arc_eq hbin hvisit hp1 hp2 hcb.2 hcne hcx h2 (Ne.symm hpv) hpx
      rw [hcv] at hcV
      exact hv hcV
  exact ⟨p, hp1, hp2, hpV, mtz_increase hmtz hp1 hp2 h1 h2 hpv hpx⟩

lemma all_visited {n : ℕ} {x : ℕ → ℕ → ℚ} {u : ℕ → ℚ}
    (hbin : binaryAssign n x) (hvisit : visitOnce n x) (hmtz : mtzHolds n x u)
    {V : Finset ℕ} (hgood : goodVisited n x V)
    (hdepot : ∀ j, 1 ≤ j → j < n → x 0 j = 1 → j ∈ V) :
    ∀ v, 1 ≤ v → v < n → v ∈ V := by
  have key : ∀ k : ℕ, ∀ v, 1 ≤ v → v < n → u v ≤ (k : ℚ) → v ∈ V := by
    intro k
    induction k with
    | zero =>
      intro v h1 h2 hu
      by_contra hv
      obtain ⟨p, hp1, hp2, hpV, hpu⟩ := pred_step hbin hvisit hmtz hgood hdepot h1 h2 hv
      have hp0 := (hmtz.1 p hp2).1
      norm_num at hu
      linarith
    | succ m ih =>
      intro v h1 h2 hu
      by_contra hv
      obtain ⟨p, hp1, hp2, hpV, hpu⟩ := pred_step hbin hvisit hmtz hgood hdepot h1 h2 hv
      refine hpV (ih p hp1 hp2 ?_)
      push_cast at hu ⊢
      linarith
  intro v h1 h2
  exact key n v h1 h2 (hmtz.1 v h2).2

/-- C1: for every instance and every 0/1 arc assignment that satisfies the
visit-once, depot-flow and MTZ subtour-elimination constraints, route
extraction terminates (a budget of n iterations per route suffices), the
extracted routes place every non-depot vertex in exactly one route exactly
once, and every extracted route begins and ends at vertex 0. -/
theorem claimC1_partition (n K : ℕ) (x : ℕ → ℕ → ℚ) (u : ℕ → ℚ)
    (hn : 2 ≤ n) (hbin : binaryAssign n x) (hvisit : visitOnce n x)
    (_hdep : depotFlow n K x) (hmtz : mtzHolds n x u) :
    ∃ routes, extractRoutes n x n = some routes ∧
      (∀ v, 1 ≤ v → v < n → (routes.map (fun r => r.count v)).sum = 1) ∧
      (∀ r ∈ routes, r.head? = some 0 ∧ r.getLast? = some 0) := by
  obtain ⟨routes2, V2, houter, hsub, hgood, hcount, hends, hsel⟩ :=
    outerLoop_run hbin hvisit hmtz (List.range' 1 (n - 1)) [] ∅
      (by intro j hj; have := List.mem_range'_1.mp hj; omega)
      (by
        unfold goodVisited closedIn closedOut
        refine ⟨?_, ?_, ?_⟩ <;> intro s hs <;> exact absurd hs (Finset.not_mem_empty s))
      (by intro v h1 h2; simp)
      (by intro r hr; cases hr)
  have hdepot : ∀ j, 1 ≤ j → j < n → x 0 j = 1 → j ∈ V2 := by
    intro j h1 h2 hx
    refine hsel j ?_ ?_
    · rw [List.mem_range'_1]
      omega
    · rw [hx]
      exact half_lt_one
  have hall := all_visited hbin hvisit hmtz hgood hdepot
  refine ⟨routes2, ?_, ?_, hends⟩
  · rw [extractRoutes, houter]
    rfl
  · intro v h1 h2
    rw [hcount v h1 h2, if_pos (hall v h1 h2)]

theorem claimC1_witness :
    ∃ routes, extractRoutes 3 xTour 3 = some routes ∧
      (∀ v, 1 ≤ v → v < 3 → (routes.map (fun r => r.count v)).sum = 1) ∧
      (∀ r ∈ routes, r.head? = some 0 ∧ r.getLast? = some 0) := by
  refine claimC1_partition 3 2 xTour uTour (by norm_num) ?_ ?_ ?_ ?_
  · intro i j hi hj hne
    interval_cases i <;> interval_cases j <;> decide
  · constructor
    · intro j h1 h2
      interval_cases j
      · rw [(by decide : others 3 1 = [0, 2])]
        norm_num [xTour]
      · rw [(by decide : others 3 2 = [0, 1])]
        norm_num [xTour]
    · intro i h1 h2
      interval_cases i
      · rw [(by decide : others 3 1 = [0, 2])]
        norm_num [xTour]
      · rw [(by decide : others 3 2 = [0, 1])]
        norm_num [xTour]
  · unfold depotFlow custRange
    rw [(by decide : List.range' 1 (3 - 1) = [1, 2])]
    norm_num [xTour]
  · constructor
    · intro i hi
      interval_cases i <;> norm_num [uTour]
    · intro i j h1 h2 h3 h4 h5
      interval_cases i <;> interval_cases j <;>
        first
        | exact absurd rfl h5
        | norm_num [uTour, xTour]

end VRPTW
